import Mathlib

/-!
# Roofline cost model for 2D convolution (`aten/src/ATen/native/autotune/cost.cpp`)

A shallow embedding of `hash_combine`, `cost::bytes_span`, `cost::conv2d::Roofline::key`,
`cost::conv2d::string_format` and `cost::conv2d::Roofline::compute`.

* `size_t` values are natural numbers below `2 ^ 64`; every `size_t` operation is
  reduced modulo `2 ^ 64`.
* `int64_t` values are integers; every `int64_t` operation is wrapped to the
  two's complement range `[-2 ^ 63, 2 ^ 63)`.
* `double` values are rationals (exact arithmetic, no rounding).
* Reading a vector outside its bounds and dividing an integer by zero have no
  result: the functions return `none` there.
* The header `cost.h` is not among the sources. The constants it declares
  (`cpu_hz`, `cpu_vector_size`, `cache_line_size`, `main_memory::approx_latency`,
  `main_memory::bandwidth::sequential_read`, `main_memory::bandwidth::sequential_write`)
  are taken as parameters in `HardwareProfile`: the two integral ones as `int64_t`,
  the others as reals. The data members of `Roofline` are declared there as well:
  the five vectors hold `int64_t` entries (they are passed as `c10::IntArrayRef`),
  and `itemsize_` is taken as `int64_t`, the type of the parameter of `bytes_span`
  it is passed to.
* `std::hash<int64_t>` is a parameter of `hash_combine` and `Roofline.key`; `std_hash`
  is its definition in libstdc++ and libc++ (the conversion to `size_t`).
* `int` values (the result of `snprintf`) are integers wrapped to `[-2 ^ 31, 2 ^ 31)`.
* The environment of `string_format` (what `snprintf` returns and renders, how large an
  array `new` grants, what fresh memory holds) is given by arguments of the function.
* The exact-arithmetic reading of a run (`spec_memory`, `spec_stall`, ...) is stated
  over the integers and rationals; the predicates `NoOverflowMemory` and
  `NoOverflowCompute` say when the machine run coincides with it.
-/

namespace cost

/-! ## Machine integers -/

/-- Conversion of an integer to `size_t` (reduction modulo `2 ^ 64`). -/
def toU64 (x : Int) : Nat := (x % 2 ^ 64).toNat

/-- Wrapping of an integer to the `int64_t` range. -/
def toS64 (x : Int) : Int := (x + 2 ^ 63) % 2 ^ 64 - 2 ^ 63

/-- Addition of two `size_t` values. -/
def addU (a b : Nat) : Nat := (a + b) % 2 ^ 64

/-- Subtraction of two `size_t` values. -/
def subU (a b : Nat) : Nat := toU64 ((a : Int) - (b : Int))

/-- Multiplication of two `size_t` values. -/
def mulU (a b : Nat) : Nat := (a * b) % 2 ^ 64

/-- Division of two `size_t` values; no result for a zero divisor. -/
def divU (a b : Nat) : Option Nat := if b = 0 then none else some (a / b)

/-- Addition of two `int64_t` values. -/
def addS (a b : Int) : Int := toS64 (a + b)

/-- Subtraction of two `int64_t` values. -/
def subS (a b : Int) : Int := toS64 (a - b)

/-- Multiplication of two `int64_t` values. -/
def mulS (a b : Int) : Int := toS64 (a * b)

/-- Division of two `int64_t` values (truncating); no result for a zero divisor. -/
def divS (a b : Int) : Option Int := if b = 0 then none else some (toS64 (Int.tdiv a b))

/-! ## `bytes_span` -/

/-- The loop of `bytes_span` (lines 30-34): `sizes` holds the entries from index `i`
on, `output` is the accumulator. `strides[i]` is read only when `sizes[i] > 1`. -/
def bytes_span_loop (strides : List Int) : List Int → Nat → Nat → Option Nat
  | [], _, output => some output
  | size :: rest, i, output =>
    if size > 1 then
      match strides[i]? with
      | none => none
      | some stride =>
        bytes_span_loop strides rest (i + 1) (addU output (toU64 (mulS (subS size 1) stride)))
    else bytes_span_loop strides rest (i + 1) output

/-- The function `cost::bytes_span` (lines 24-37). -/
def bytes_span (sizes strides : List Int) (itemsize : Int) : Option Nat :=
  if sizes.length = 0 then some 0
  else
    match bytes_span_loop strides sizes 0 1 with
    | none => none
    | some output => some (mulU output (toU64 itemsize))

/-! ## `Roofline` -/

/-- The constants of `cost.h` read by `Roofline::compute`. -/
structure HardwareProfile where
  cpu_hz : ℚ
  cpu_vector_size : Int
  cache_line_size : Int
  approx_latency : ℚ
  sequential_read : ℚ
  sequential_write : ℚ

/-- The data members of `cost::conv2d::Roofline`. -/
structure Roofline where
  input_sizes_ : List Int
  input_strides_ : List Int
  weight_sizes_ : List Int
  weight_strides_ : List Int
  output_sizes_ : List Int
  itemsize_ : Int

/-- The local variables of `Roofline::compute` at its `return` statement. -/
structure ComputeLocals where
  read_bytes : Nat
  output_numel : Int
  elements_per_cache_line : Int
  cache_lines_fetched : Nat
  read_stall_time : ℚ
  memory : ℚ
  memory_with_stalls : ℚ
  N : Int
  C_out : Int
  C_in : Int
  kernel_hw : Int
  output_hw : Int
  C_in_vectorized : Int
  kernel_hw_vectorized : Int
  compute_naive : ℚ
  compute_C_in_vectorized : ℚ
  compute_kernel_hw_vectorized : ℚ

/-- The body of `Roofline::compute` up to its `return` statement (lines 79-112). -/
def Roofline.compute_locals (hw : HardwareProfile) (q : Roofline) : Option ComputeLocals :=
  match bytes_span q.input_sizes_ q.input_strides_ q.itemsize_,
        bytes_span q.weight_sizes_ q.weight_strides_ q.itemsize_ with
  | some span_input, some span_weight =>
    let read_bytes := addU span_input span_weight
    let output_numel := q.output_sizes_.foldl (fun acc i => mulS acc i) 1
    match divS hw.cache_line_size q.itemsize_ with
    | none => none
    | some elements_per_cache_line =>
      match divU (subU (addU read_bytes (toU64 elements_per_cache_line)) 1)
              (toU64 elements_per_cache_line) with
      | none => none
      | some cache_lines_fetched =>
        let read_stall_time : ℚ := (cache_lines_fetched : ℚ) * hw.approx_latency
        let memory : ℚ := (read_bytes : ℚ) / hw.sequential_read +
          (output_numel : ℚ) * (q.itemsize_ : ℚ) / hw.sequential_write
        let memory_with_stalls : ℚ := memory + read_stall_time
        match q.input_sizes_[0]?, q.output_sizes_[0]?, q.output_sizes_[1]?,
              q.weight_sizes_[2]?, q.weight_sizes_[3]?,
              q.output_sizes_[2]?, q.output_sizes_[3]? with
        | some N, some C_out, some C_in, some w2, some w3, some o2, some o3 =>
          let kernel_hw := mulS w2 w3
          let output_hw := mulS o2 o3
          match divS (subS (addS C_in hw.cpu_vector_size) 1) hw.cpu_vector_size,
                divS (subS (addS kernel_hw hw.cpu_vector_size) 1) hw.cpu_vector_size with
          | some C_in_vectorized, some kernel_hw_vectorized =>
            some {
              read_bytes := read_bytes
              output_numel := output_numel
              elements_per_cache_line := elements_per_cache_line
              cache_lines_fetched := cache_lines_fetched
              read_stall_time := read_stall_time
              memory := memory
              memory_with_stalls := memory_with_stalls
              N := N
              C_out := C_out
              C_in := C_in
              kernel_hw := kernel_hw
              output_hw := output_hw
              C_in_vectorized := C_in_vectorized
              kernel_hw_vectorized := kernel_hw_vectorized
              compute_naive :=
                ((mulS (mulS (mulS (mulS N C_in) C_out) kernel_hw) output_hw : Int) : ℚ)
                  / hw.cpu_hz
              compute_C_in_vectorized :=
                ((mulS (mulS (mulS (mulS N C_in_vectorized) C_out) kernel_hw) output_hw : Int) : ℚ)
                  / hw.cpu_hz
              compute_kernel_hw_vectorized :=
                ((mulS (mulS (mulS (mulS N C_in) C_out) kernel_hw_vectorized) output_hw : Int) : ℚ)
                  / hw.cpu_hz }
          | _, _ => none
        | _, _, _, _, _, _, _ => none
  | _, _ => none

/-- The function `Roofline::compute` (lines 78-120): the vector it returns. -/
def Roofline.compute (hw : HardwareProfile) (q : Roofline) : Option (List ℚ) :=
  match q.compute_locals hw with
  | none => none
  | some l =>
    some [max l.memory_with_stalls l.compute_naive,
          max l.memory (min l.compute_C_in_vectorized l.compute_kernel_hw_vectorized)]

/-! ## Reference definitions in exact arithmetic -/

/-- The stride term of one dimension: `(size - 1) * stride` when `size > 1`, else `0`. -/
def span_term (size stride : Int) : Int := if size > 1 then (size - 1) * stride else 0

/-- Sum of the stride terms of all dimensions, by recursion on the two vectors. -/
def span_terms : List Int → List Int → Int
  | size :: sizes, stride :: strides => span_term size stride + span_terms sizes strides
  | _, _ => 0

/-- Reference definition of `bytes_span` in exact integer arithmetic, following the
specification: `0` for an empty shape, otherwise
`(1 + Σ_i (sizes[i] > 1 ? (sizes[i] - 1) * strides[i] : 0)) * itemsize`. -/
def bytes_span_spec (sizes strides : List Int) (itemsize : Int) : Int :=
  if sizes.length = 0 then 0
  else (1 + ∑ i in Finset.range sizes.length,
      if sizes.getD i 0 > 1 then (sizes.getD i 0 - 1) * strides.getD i 0 else 0) * itemsize

/-- Element offset of an index tuple: `Σ_i idx[i] * strides[i]`. -/
def element_offset (idx strides : List Int) : Int := (List.zipWith (· * ·) idx strides).sum

/-- An index tuple is in bounds: `0 ≤ idx[i] < sizes[i]` in every dimension. -/
def InBounds (idx sizes : List Int) : Prop :=
  List.Forall₂ (fun i s => 0 ≤ i ∧ i < s) idx sizes

/-- Row-major contiguous strides: the last stride is `1` and every earlier stride is
the next stride times the next size. -/
def RowMajor : List Int → List Int → Prop
  | [], [] => True
  | [_], [t] => t = 1
  | _ :: s :: sizes, t :: u :: strides => t = u * s ∧ RowMajor (s :: sizes) (u :: strides)
  | _, _ => False

/-! ## Well-formed queries and the exact-arithmetic reading of `compute` -/

/-- Every size and stride vector of the query has exactly 4 entries. -/
def Roofline.Rank4 (q : Roofline) : Prop :=
  q.input_sizes_.length = 4 ∧ q.input_strides_.length = 4 ∧
  q.weight_sizes_.length = 4 ∧ q.weight_strides_.length = 4 ∧
  q.output_sizes_.length = 4

/-- Every size of the query is non-negative. -/
def Roofline.NonnegSizes (q : Roofline) : Prop :=
  (∀ s ∈ q.input_sizes_, 0 ≤ s) ∧ (∀ s ∈ q.weight_sizes_, 0 ≤ s) ∧
  (∀ s ∈ q.output_sizes_, 0 ≤ s)

/-- Every stride of the query is non-negative. -/
def Roofline.NonnegStrides (q : Roofline) : Prop :=
  (∀ t ∈ q.input_strides_, 0 ≤ t) ∧ (∀ t ∈ q.weight_strides_, 0 ≤ t)

/-- The value lies in the range of `int64_t`. -/
def InS64 (x : Int) : Prop := -2 ^ 63 ≤ x ∧ x < 2 ^ 63

/-- Exact `read_bytes`: span of the input plus span of the weight. -/
def spec_read_bytes (q : Roofline) : Int :=
  bytes_span_spec q.input_sizes_ q.input_strides_ q.itemsize_ +
    bytes_span_spec q.weight_sizes_ q.weight_strides_ q.itemsize_

/-- Exact `elements_per_cache_line`: the integer quotient `cache_line_size / itemsize`. -/
def spec_elements_per_cache_line (hw : HardwareProfile) (q : Roofline) : Int :=
  hw.cache_line_size / q.itemsize_

/-- Exact `memory`:
`read_bytes / sequential_read + product(output_sizes) * itemsize / sequential_write`. -/
def spec_memory (hw : HardwareProfile) (q : Roofline) : ℚ :=
  (spec_read_bytes q : ℚ) / hw.sequential_read +
    (q.output_sizes_.prod : ℚ) * (q.itemsize_ : ℚ) / hw.sequential_write

/-- Exact `read_stall_time`: `ceil(read_bytes / e) * approx_latency`. -/
def spec_stall (hw : HardwareProfile) (q : Roofline) : ℚ :=
  ((⌈(spec_read_bytes q : ℚ) / (spec_elements_per_cache_line hw q : ℚ)⌉ : Int) : ℚ)
    * hw.approx_latency

/-- The batch count `N = input_sizes[0]`. -/
def spec_N (q : Roofline) : Int := q.input_sizes_.getD 0 0

/-- The value used as `C_out`: `output_sizes[0]`. -/
def spec_C_out (q : Roofline) : Int := q.output_sizes_.getD 0 0

/-- The value used as `C_in`: `output_sizes[1]`. -/
def spec_C_in (q : Roofline) : Int := q.output_sizes_.getD 1 0

/-- Exact `kernel_hw = weight_sizes[2] * weight_sizes[3]`. -/
def spec_kernel_hw (q : Roofline) : Int := q.weight_sizes_.getD 2 0 * q.weight_sizes_.getD 3 0

/-- Exact `output_hw = output_sizes[2] * output_sizes[3]`. -/
def spec_output_hw (q : Roofline) : Int := q.output_sizes_.getD 2 0 * q.output_sizes_.getD 3 0

/-- Exact iteration count `N * C_in * C_out * kernel_hw * output_hw`. -/
def spec_iterations (q : Roofline) : Int :=
  spec_N q * spec_C_in q * spec_C_out q * spec_kernel_hw q * spec_output_hw q

/-- Exact `compute_naive`. -/
def spec_compute_naive (hw : HardwareProfile) (q : Roofline) : ℚ :=
  (spec_iterations q : ℚ) / hw.cpu_hz

/-- Exact `compute_C_in_vectorized`: `C_in` replaced by `ceil(C_in / cpu_vector_size)`. -/
def spec_compute_C_in_vectorized (hw : HardwareProfile) (q : Roofline) : ℚ :=
  ((spec_N q * ⌈(spec_C_in q : ℚ) / (hw.cpu_vector_size : ℚ)⌉ * spec_C_out q
      * spec_kernel_hw q * spec_output_hw q : Int) : ℚ) / hw.cpu_hz

/-- Exact `compute_kernel_hw_vectorized`: `kernel_hw` replaced by
`ceil(kernel_hw / cpu_vector_size)`. -/
def spec_compute_kernel_hw_vectorized (hw : HardwareProfile) (q : Roofline) : ℚ :=
  ((spec_N q * spec_C_in q * spec_C_out q
      * ⌈(spec_kernel_hw q : ℚ) / (hw.cpu_vector_size : ℚ)⌉ * spec_output_hw q : Int) : ℚ)
    / hw.cpu_hz

/-- No overflow on the memory side of `compute`: both exact spans are non-negative,
`read_bytes + elements_per_cache_line - 1` fits `size_t`, `cache_line_size` and the
product of the output sizes fit `int64_t`. -/
def NoOverflowMemory (hw : HardwareProfile) (q : Roofline) : Prop :=
  0 ≤ bytes_span_spec q.input_sizes_ q.input_strides_ q.itemsize_ ∧
  0 ≤ bytes_span_spec q.weight_sizes_ q.weight_strides_ q.itemsize_ ∧
  spec_read_bytes q + spec_elements_per_cache_line hw q - 1 < 2 ^ 64 ∧
  hw.cache_line_size < 2 ^ 63 ∧
  InS64 q.output_sizes_.prod

/-- No overflow on the compute side of `compute`: the two dividends
`C_in + cpu_vector_size - 1` and `kernel_hw + cpu_vector_size - 1` and the iteration
count fit `int64_t`. -/
def NoOverflowCompute (hw : HardwareProfile) (q : Roofline) : Prop :=
  InS64 (spec_C_in q + hw.cpu_vector_size - 1) ∧
  InS64 (spec_kernel_hw q + hw.cpu_vector_size - 1) ∧
  InS64 (spec_iterations q)

/-- No overflow anywhere in `compute`. -/
def NoOverflow (hw : HardwareProfile) (q : Roofline) : Prop :=
  NoOverflowMemory hw q ∧ NoOverflowCompute hw q

/-! ## Runs of `compute_locals` -/

/-- The record of locals built from the values read and the quotients computed. -/
def mkLocals (hw : HardwareProfile) (q : Roofline) (a b clf : Nat)
    (e N C_out C_in w2 w3 o2 o3 cv kv : Int) : ComputeLocals where
  read_bytes := addU a b
  output_numel := q.output_sizes_.foldl (fun acc i => mulS acc i) 1
  elements_per_cache_line := e
  cache_lines_fetched := clf
  read_stall_time := (clf : ℚ) * hw.approx_latency
  memory := ((addU a b : Nat) : ℚ) / hw.sequential_read +
    ((q.output_sizes_.foldl (fun acc i => mulS acc i) 1 : Int) : ℚ) * (q.itemsize_ : ℚ)
      / hw.sequential_write
  memory_with_stalls := ((addU a b : Nat) : ℚ) / hw.sequential_read +
    ((q.output_sizes_.foldl (fun acc i => mulS acc i) 1 : Int) : ℚ) * (q.itemsize_ : ℚ)
      / hw.sequential_write + (clf : ℚ) * hw.approx_latency
  N := N
  C_out := C_out
  C_in := C_in
  kernel_hw := mulS w2 w3
  output_hw := mulS o2 o3
  C_in_vectorized := cv
  kernel_hw_vectorized := kv
  compute_naive :=
    ((mulS (mulS (mulS (mulS N C_in) C_out) (mulS w2 w3)) (mulS o2 o3) : Int) : ℚ) / hw.cpu_hz
  compute_C_in_vectorized :=
    ((mulS (mulS (mulS (mulS N cv) C_out) (mulS w2 w3)) (mulS o2 o3) : Int) : ℚ) / hw.cpu_hz
  compute_kernel_hw_vectorized :=
    ((mulS (mulS (mulS (mulS N C_in) C_out) kv) (mulS o2 o3) : Int) : ℚ) / hw.cpu_hz

/-- The premises under which `compute_locals` reaches its end with the given values. -/
def LocalsPremises (hw : HardwareProfile) (q : Roofline) (a b clf : Nat)
    (e N C_out C_in w2 w3 o2 o3 cv kv : Int) : Prop :=
  bytes_span q.input_sizes_ q.input_strides_ q.itemsize_ = some a ∧
  bytes_span q.weight_sizes_ q.weight_strides_ q.itemsize_ = some b ∧
  divS hw.cache_line_size q.itemsize_ = some e ∧
  divU (subU (addU (addU a b) (toU64 e)) 1) (toU64 e) = some clf ∧
  q.input_sizes_[0]? = some N ∧ q.output_sizes_[0]? = some C_out ∧
  q.output_sizes_[1]? = some C_in ∧
  q.weight_sizes_[2]? = some w2 ∧ q.weight_sizes_[3]? = some w3 ∧
  q.output_sizes_[2]? = some o2 ∧ q.output_sizes_[3]? = some o3 ∧
  divS (subS (addS C_in hw.cpu_vector_size) 1) hw.cpu_vector_size = some cv ∧
  divS (subS (addS (mulS w2 w3) hw.cpu_vector_size) 1) hw.cpu_vector_size = some kv

/-! ## Example inputs -/

/-- The hardware profile of the end-to-end example: `cpu_hz = 10^9`,
`cpu_vector_size = 8`, `cache_line_size = 64`, `approx_latency = 10^-7`,
`sequential_read = sequential_write = 10^10`. -/
def hwEx : HardwareProfile :=
  { cpu_hz := 10 ^ 9, cpu_vector_size := 8, cache_line_size := 64,
    approx_latency := 1 / 10 ^ 7, sequential_read := 10 ^ 10, sequential_write := 10 ^ 10 }

/-- The query of the end-to-end example. -/
def qEx : Roofline :=
  { input_sizes_ := [1, 3, 8, 8], input_strides_ := [192, 64, 8, 1],
    weight_sizes_ := [4, 3, 3, 3], weight_strides_ := [27, 9, 3, 1],
    output_sizes_ := [1, 4, 6, 6], itemsize_ := 4 }

/-- A query whose weight tensor alone spans `2 ^ 63` bytes: input sizes `(2,1,1,1)`
with strides `(1,1,1,1)`, weight sizes `(2,1,1,1)` with strides `(2^63 - 1,1,1,1)`,
output sizes `(1,1,1,1)`, itemsize 1. -/
def qWrapSmall : Roofline :=
  { input_sizes_ := [2, 1, 1, 1], input_strides_ := [1, 1, 1, 1],
    weight_sizes_ := [2, 1, 1, 1], weight_strides_ := [2 ^ 63 - 1, 1, 1, 1],
    output_sizes_ := [1, 1, 1, 1], itemsize_ := 1 }

/-- The query `qWrapSmall` with the input strides replaced by `(2^63 - 1,1,1,1)`, so
that the input spans `2 ^ 63` bytes as well. -/
def qWrapLarge : Roofline :=
  { qWrapSmall with input_strides_ := [2 ^ 63 - 1, 1, 1, 1] }

/-- The query `qEx` with the input strides doubled. -/
def qExWide : Roofline := { qEx with input_strides_ := [384, 128, 16, 2] }

/-- Left shift of a `size_t` value. -/
def shlU (a k : Nat) : Nat := (a <<< k) % 2 ^ 64

/-- Right shift of a `size_t` value. -/
def shrU (a k : Nat) : Nat := a >>> k

/-- The function `hash_combine` (lines 18-20): the loop over `v`, each round replacing
`seed` by `seed ^ (hash(vi) + 0x9e3779b9 + (seed << 6) + (seed >> 2))`. The function
object `std::hash<int64_t>` is the parameter `hash`. -/
def hash_combine (hash : Int → Nat) : Nat → List Int → Nat
  | seed, [] => seed
  | seed, vi :: v =>
    hash_combine hash
      (seed ^^^ addU (addU (addU (hash vi) 0x9e3779b9) (shlU seed 6)) (shrU seed 2)) v

/-- The function `Roofline::key` (lines 41-49). -/
def Roofline.key (hash : Int → Nat) (q : Roofline) : Nat :=
  let output := 0
  let output := hash_combine hash output q.input_sizes_
  let output := hash_combine hash output q.input_strides_
  let output := hash_combine hash output q.weight_sizes_
  let output := hash_combine hash output q.weight_strides_
  let output := hash_combine hash output q.output_sizes_
  output

/-- The `std::hash<int64_t>` of libstdc++ and libc++: the conversion to `size_t`. -/
def std_hash (v : Int) : Nat := toU64 v

/-- One round of the fingerprint as the specification words it:
`seed XOR (hash(v) + 0x9e3779b9 + (seed << 6) + (seed >> 2))` in 64-bit wraparound
arithmetic. -/
def key_step_spec (hash : Int → Nat) (seed : Nat) (v : Int) : Nat :=
  seed ^^^ ((hash v + 0x9e3779b9 + (seed <<< 6) + (seed >>> 2)) % 2 ^ 64)

/-! ## `string_format` -/

/-- Wrapping of an integer to the `int` range. -/
def toS32 (x : Int) : Int := (x + 2 ^ 31) % 2 ^ 32 - 2 ^ 31

/-- The local `size` of `string_format` (line 56) for a sizing call returning `r`:
`r + 1` in `int` arithmetic, converted to `size_t`. -/
def string_format_size (r : Int) : Nat := toU64 (toS32 (r + 1))

/-- What a call of `string_format` can throw: the `std::runtime_error` of line 57 with
its message, or the `std::bad_alloc` (or a class derived from it) of `new char[size]`
on line 58. -/
inductive FormatException where
  | runtime_error (what : String)
  | bad_alloc

/-- The buffer `buf` after the second `snprintf` (line 59): the call writes the first
`size - 1` characters of the rendering `text` and a terminating zero; the bytes behind
it keep the content `uninit` of the fresh allocation. -/
def string_format_buf (size : Nat) (text : List Char) (uninit : Nat → Char) (i : Nat) :
    Char :=
  if i < (text.take (size - 1)).length then (text.take (size - 1)).getD i (Char.ofNat 0)
  else if i = (text.take (size - 1)).length then Char.ofNat 0
  else uninit i

/-- The function `string_format` (lines 53-61). Its environment is given by four
arguments: `r`, the `int` returned by the sizing call `snprintf(nullptr, 0, ...)`;
`available`, the largest array `new char[...]` grants (a larger request throws
`std::bad_alloc`); `text`, the characters the rendering of the format and arguments
produces; `uninit`, the content of freshly allocated memory. The result is the thrown
exception or the characters of the returned string, `buf[0 .. size - 1)`. -/
def string_format (r : Int) (available : Nat) (text : List Char) (uninit : Nat → Char) :
    Except FormatException (List Char) :=
  let size := string_format_size r
  if size ≤ 0 then Except.error (FormatException.runtime_error "Error during formatting.")
  else if available < size then Except.error FormatException.bad_alloc
  else Except.ok ((List.range (size - 1)).map (string_format_buf size text uninit))

/-! ## Further example inputs -/

/-- The vectorized estimate: the second value returned by `compute`. -/
def Roofline.vectorized_estimate (hw : HardwareProfile) (q : Roofline) : Option ℚ :=
  (q.compute hw).bind (fun r => r[1]?)

/-- The query `qEx` with itemsize 8. -/
def qEx8 : Roofline := { qEx with itemsize_ := 8 }

/-- The profile `hwEx` with a cache line of 4 bytes. -/
def hwTiny : HardwareProfile := { hwEx with cache_line_size := 4 }

/-- The profile `hwEx` with a cache line of 128 bytes and a latency of `10^-6`. -/
def hwLong : HardwareProfile :=
  { hwEx with cache_line_size := 128, approx_latency := 1 / 10 ^ 6 }

/-- A query on a 285 x 747 single-channel image with a 3 x 3 kernel. -/
def qPortrait : Roofline :=
  { input_sizes_ := [1, 1, 285, 747], input_strides_ := [212895, 212895, 747, 1],
    weight_sizes_ := [1, 1, 3, 3], weight_strides_ := [9, 9, 3, 1],
    output_sizes_ := [1, 1, 283, 745], itemsize_ := 4 }

/-- The query `qPortrait` with the last two input sizes exchanged. -/
def qLandscape : Roofline := { qPortrait with input_sizes_ := [1, 1, 747, 285] }

/-- The query `qEx` with the first two input sizes exchanged. -/
def qExSwapped : Roofline := { qEx with input_sizes_ := [3, 1, 8, 8] }

/-! ## Machine arithmetic lemmas -/

theorem toU64_lt (x : Int) : toU64 x < 2 ^ 64 := by
  unfold toU64; omega

theorem toU64_cast (x : Int) : ((toU64 x : Nat) : Int) = x % 2 ^ 64 := by
  unfold toU64; omega

theorem toS64_modEq (x : Int) : toS64 x ≡ x [ZMOD 2 ^ 64] := by
  unfold toS64 Int.ModEq; omega

theorem toU64_modEq (x : Int) : ((toU64 x : Nat) : Int) ≡ x [ZMOD 2 ^ 64] := by
  rw [toU64_cast]; exact Int.mod_modEq x _

theorem toU64_congr {a b : Int} (h : a ≡ b [ZMOD 2 ^ 64]) : toU64 a = toU64 b := by
  unfold toU64; rw [h]

theorem toS64_congr {a b : Int} (h : a ≡ b [ZMOD 2 ^ 64]) : toS64 a = toS64 b := by
  unfold toS64
  have h2 : (a + 2 ^ 63) % 2 ^ 64 = (b + 2 ^ 63) % 2 ^ 64 := h.add_right _
  rw [h2]

theorem toU64_of_range {x : Int} (h0 : 0 ≤ x) (h1 : x < 2 ^ 64) : toU64 x = x.toNat := by
  unfold toU64; rw [Int.emod_eq_of_lt h0 h1]

theorem toS64_of_range {x : Int} (h0 : -2 ^ 63 ≤ x) (h1 : x < 2 ^ 63) : toS64 x = x := by
  unfold toS64; omega

theorem addU_eq (a b : Nat) : addU a b = toU64 ((a : Int) + b) := by
  unfold addU toU64; omega

theorem mulU_eq (a b : Nat) : mulU a b = toU64 ((a : Int) * b) := by
  unfold mulU toU64
  have : ((a * b : Nat) : Int) = (a : Int) * b := by push_cast; rfl
  omega

theorem toU64_mulS_subS (size stride : Int) :
    toU64 (mulS (subS size 1) stride) = toU64 ((size - 1) * stride) := by
  apply toU64_congr
  unfold mulS subS
  exact (toS64_modEq _).trans ((toS64_modEq _).mul_right _)

/-! ## `bytes_span` against its reference definition -/

theorem bytes_span_loop_eq (strides : List Int) :
    ∀ (rest : List Int) (i output : Nat), i + rest.length ≤ strides.length →
      output < 2 ^ 64 →
      bytes_span_loop strides rest i output
        = some (toU64 ((output : Int) + span_terms rest (strides.drop i))) := by
  intro rest
  induction rest with
  | nil =>
    intro i output _ ho
    simp only [bytes_span_loop, span_terms, add_zero]
    rw [toU64_of_range (by omega) (by omega)]; simp
  | cons size rest ih =>
    intro i output hi ho
    have hlt : i < strides.length := by simp at hi; omega
    have hdrop : strides.drop i = strides[i] :: strides.drop (i + 1) :=
      List.drop_eq_getElem_cons hlt
    have hget : strides[i]? = some strides[i] := List.getElem?_eq_getElem hlt
    have hi2 : i + 1 + rest.length ≤ strides.length := by simp at hi; omega
    rw [bytes_span_loop, hdrop]
    by_cases hs : size > 1
    · simp only [hs, if_true, hget, span_terms, span_term]
      rw [ih (i + 1) _ hi2 (by unfold addU; omega)]
      congr 1
      apply toU64_congr
      rw [addU_eq, toU64_mulS_subS]
      have h1 := toU64_modEq ((size - 1) * strides[i])
      have h2 := toU64_modEq ((output : Int) + ((toU64 ((size - 1) * strides[i]) : Nat) : Int))
      have h3 := (h2.trans (h1.add_left (output : Int))).add_right
        (span_terms rest (List.drop (i + 1) strides))
      rw [add_assoc] at h3
      exact h3
    · simp only [hs, if_false, span_terms, span_term, zero_add]
      exact ih (i + 1) output hi2 ho

theorem sum_terms_eq : ∀ (sizes strides : List Int), sizes.length ≤ strides.length →
    (∑ i in Finset.range sizes.length,
      if sizes.getD i 0 > 1 then (sizes.getD i 0 - 1) * strides.getD i 0 else 0)
      = span_terms sizes strides := by
  intro sizes
  induction sizes with
  | nil => intro strides _; simp [span_terms]
  | cons s sizes ih =>
    intro strides h
    cases strides with
    | nil => simp at h
    | cons t strides =>
      have h2 : sizes.length ≤ strides.length := by simpa using h
      rw [List.length_cons, Finset.sum_range_succ', span_terms, ← ih strides h2, add_comm]
      simp [span_term]

theorem bytes_span_spec_eq_terms (sizes strides : List Int) (itemsize : Int)
    (h : sizes.length ≤ strides.length) (hne : sizes ≠ []) :
    bytes_span_spec sizes strides itemsize = (1 + span_terms sizes strides) * itemsize := by
  unfold bytes_span_spec
  have h0 : sizes.length ≠ 0 := by simpa using hne
  rw [if_neg h0, sum_terms_eq sizes strides h]

theorem bytes_span_eq_spec (sizes strides : List Int) (itemsize : Int)
    (h : sizes.length ≤ strides.length) :
    bytes_span sizes strides itemsize
      = some (toU64 (bytes_span_spec sizes strides itemsize)) := by
  unfold bytes_span bytes_span_spec
  by_cases h0 : sizes.length = 0
  · simp [h0, toU64]
  · simp only [h0, if_false]
    rw [bytes_span_loop_eq strides sizes 0 1 (by simpa using h) (by norm_num)]
    simp only [List.drop_zero]
    rw [sum_terms_eq sizes strides h, mulU_eq]
    congr 1
    apply toU64_congr
    have h1 := (toU64_modEq ((1 : Int) + span_terms sizes strides)).mul (toU64_modEq itemsize)
    simpa using h1

theorem bytes_span_exact (sizes strides : List Int) (itemsize : Int)
    (h : sizes.length ≤ strides.length)
    (h0 : 0 ≤ bytes_span_spec sizes strides itemsize)
    (h1 : bytes_span_spec sizes strides itemsize < 2 ^ 64) :
    bytes_span sizes strides itemsize
      = some (bytes_span_spec sizes strides itemsize).toNat := by
  rw [bytes_span_eq_spec sizes strides itemsize h, toU64_of_range h0 h1]

/-- C2: when `strides` is at least as long as `sizes`, `bytes_span` returns the
reference value `bytes_span_spec` (0 for an empty shape, otherwise one plus the sum
of `(sizes[i] - 1) * strides[i]` over the dimensions with `sizes[i] > 1`, times
`itemsize`) reduced modulo `2 ^ 64`; it returns 0 for an empty shape; and it returns
the exact integer value whenever that value lies in `[0, 2 ^ 64)`. -/
theorem bytes_span_refines_spec (sizes strides : List Int) (itemsize : Int)
    (h : sizes.length ≤ strides.length) :
    bytes_span sizes strides itemsize
        = some (bytes_span_spec sizes strides itemsize % 2 ^ 64).toNat ∧
      (sizes = [] → bytes_span sizes strides itemsize = some 0) ∧
      (0 ≤ bytes_span_spec sizes strides itemsize →
        bytes_span_spec sizes strides itemsize < 2 ^ 64 →
        (bytes_span sizes strides itemsize).map Int.ofNat
          = some (bytes_span_spec sizes strides itemsize)) := by
  refine ⟨bytes_span_eq_spec sizes strides itemsize h, ?_, ?_⟩
  · intro hs; subst hs; rfl
  · intro h0 h1
    rw [bytes_span_exact sizes strides itemsize h h0 h1]
    simp [Int.toNat_of_nonneg h0]

/-- Witness of C2 on sizes `(1,3,8,8)`, strides `(192,64,8,1)`, itemsize 4. -/
theorem bytes_span_refines_spec_witness :
    ([1, 3, 8, 8] : List Int).length ≤ ([192, 64, 8, 1] : List Int).length ∧
      (bytes_span [1, 3, 8, 8] [192, 64, 8, 1] 4
        = some (bytes_span_spec [1, 3, 8, 8] [192, 64, 8, 1] 4 % 2 ^ 64).toNat ∧
      (([1, 3, 8, 8] : List Int) = [] → bytes_span [1, 3, 8, 8] [192, 64, 8, 1] 4 = some 0) ∧
      (0 ≤ bytes_span_spec [1, 3, 8, 8] [192, 64, 8, 1] 4 →
        bytes_span_spec [1, 3, 8, 8] [192, 64, 8, 1] 4 < 2 ^ 64 →
        (bytes_span [1, 3, 8, 8] [192, 64, 8, 1] 4).map Int.ofNat
          = some (bytes_span_spec [1, 3, 8, 8] [192, 64, 8, 1] 4))) :=
  ⟨by decide, bytes_span_refines_spec [1, 3, 8, 8] [192, 64, 8, 1] 4 (by decide)⟩

/-! ## The span covers the footprint -/

theorem span_term_of_pos {s t : Int} (hs : 1 ≤ s) : span_term s t = (s - 1) * t := by
  unfold span_term
  split
  · rfl
  · have : s = 1 := by omega
    subst this; simp

theorem span_terms_nonneg : ∀ (sizes strides : List Int),
    (∀ t ∈ strides, 0 ≤ t) → 0 ≤ span_terms sizes strides := by
  intro sizes
  induction sizes with
  | nil => intro strides _; simp [span_terms]
  | cons s sizes ih =>
    intro strides ht
    cases strides with
    | nil => simp [span_terms]
    | cons t strides =>
      have h1 : 0 ≤ t := ht t (by simp)
      have h2 := ih strides (fun u hu => ht u (by simp [hu]))
      have h3 : 0 ≤ span_term s t := by
        unfold span_term
        split
        · exact mul_nonneg (by omega) h1
        · exact le_refl 0
      simp only [span_terms]; omega

theorem offset_le_terms : ∀ (idx sizes strides : List Int),
    InBounds idx sizes → (∀ t ∈ strides, 0 ≤ t) →
    element_offset idx strides ≤ span_terms sizes strides := by
  intro idx
  induction idx with
  | nil =>
    intro sizes strides _ ht
    simpa [element_offset] using span_terms_nonneg sizes strides ht
  | cons i idx ih =>
    intro sizes strides hb ht
    cases sizes with
    | nil => cases hb
    | cons s sizes =>
      cases strides with
      | nil => simp [element_offset, span_terms]
      | cons t strides =>
        unfold InBounds at hb
        rw [List.forall₂_cons] at hb
        obtain ⟨⟨hi0, his⟩, hrest⟩ := hb
        have h1 : 0 ≤ t := ht t (by simp)
        have h2 := ih sizes strides hrest (fun u hu => ht u (by simp [hu]))
        have h3 : i * t ≤ (s - 1) * t := mul_le_mul_of_nonneg_right (by omega) h1
        rw [span_terms, span_term_of_pos (by omega : 1 ≤ s)]
        simp only [element_offset, List.zipWith_cons_cons, List.sum_cons] at h2 ⊢
        omega

theorem offset_last_eq_terms : ∀ (sizes strides : List Int),
    (∀ s ∈ sizes, 1 ≤ s) →
    element_offset (sizes.map (fun s => s - 1)) strides = span_terms sizes strides := by
  intro sizes
  induction sizes with
  | nil => intro strides _; simp [element_offset, span_terms]
  | cons s sizes ih =>
    intro strides hs
    cases strides with
    | nil => simp [element_offset, span_terms]
    | cons t strides =>
      have h2 := ih strides (fun u hu => hs u (by simp [hu]))
      rw [span_terms, span_term_of_pos (hs s (by simp))]
      simp only [element_offset, List.map_cons, List.zipWith_cons_cons, List.sum_cons] at h2 ⊢
      omega

/-- C3: for a non-empty shape with all sizes at least 1, non-negative strides (one per
dimension), itemsize `w ≥ 1` and an exact span below `2 ^ 64` (no overflow),
`bytes_span` returns a value `span` such that every in-bounds index tuple has byte
offset `w * Σ idx[i] * strides[i]` with `offset + w ≤ span`, and the last index tuple
(`idx[i] = sizes[i] - 1`) attains `offset + w = span`. -/
theorem bytes_span_covers_footprint (sizes strides : List Int) (w : Int)
    (hne : sizes ≠ []) (hlen : strides.length = sizes.length)
    (hs : ∀ s ∈ sizes, 1 ≤ s) (ht : ∀ t ∈ strides, 0 ≤ t) (hw : 1 ≤ w)
    (hno : bytes_span_spec sizes strides w < 2 ^ 64) :
    ∃ span : Nat, bytes_span sizes strides w = some span ∧
      (∀ idx : List Int, InBounds idx sizes →
        w * element_offset idx strides + w ≤ (span : Int)) ∧
      w * element_offset (sizes.map (fun s => s - 1)) strides + w = (span : Int) := by
  have hle : sizes.length ≤ strides.length := by omega
  have hspec := bytes_span_spec_eq_terms sizes strides w hle hne
  have hterms := span_terms_nonneg sizes strides ht
  have h0 : 0 ≤ bytes_span_spec sizes strides w := by
    rw [hspec]; exact mul_nonneg (by omega) (by omega)
  refine ⟨(bytes_span_spec sizes strides w).toNat,
    bytes_span_exact sizes strides w hle h0 hno, ?_, ?_⟩
  · intro idx hb
    rw [Int.toNat_of_nonneg h0, hspec]
    have h1 := offset_le_terms idx sizes strides hb ht
    nlinarith
  · rw [Int.toNat_of_nonneg h0, hspec, offset_last_eq_terms sizes strides hs]
    ring

/-- Witness of C3 on sizes `(4,1,3)`, strides `(3,999,1)`, itemsize 2. -/
theorem bytes_span_covers_footprint_witness :
    (([4, 1, 3] : List Int) ≠ [] ∧ ([3, 999, 1] : List Int).length = ([4, 1, 3] : List Int).length ∧
      (∀ s ∈ ([4, 1, 3] : List Int), 1 ≤ s) ∧ (∀ t ∈ ([3, 999, 1] : List Int), 0 ≤ t) ∧
      (1 : Int) ≤ 2 ∧ bytes_span_spec [4, 1, 3] [3, 999, 1] 2 < 2 ^ 64) ∧
    ∃ span : Nat, bytes_span [4, 1, 3] [3, 999, 1] 2 = some span ∧
      (∀ idx : List Int, InBounds idx [4, 1, 3] →
        2 * element_offset idx [3, 999, 1] + 2 ≤ (span : Int)) ∧
      2 * element_offset (([4, 1, 3] : List Int).map (fun s => s - 1)) [3, 999, 1] + 2
        = (span : Int) :=
  ⟨⟨by decide, by decide, by decide, by decide, by decide, by decide⟩,
    bytes_span_covers_footprint [4, 1, 3] [3, 999, 1] 2 (by decide) (by decide) (by decide)
      (by decide) (by decide) (by decide)⟩

/-! ## Contiguous shapes -/

theorem rowMajor_head_eq_prod : ∀ (sizes : List Int) (s t : Int) (strides : List Int),
    RowMajor (s :: sizes) (t :: strides) → t = sizes.prod := by
  intro sizes
  induction sizes with
  | nil =>
    intro s t strides h
    cases strides with
    | nil => simpa [RowMajor] using h
    | cons u strides => simp [RowMajor] at h
  | cons s2 sizes ih =>
    intro s t strides h
    cases strides with
    | nil => simp [RowMajor] at h
    | cons u strides =>
      simp only [RowMajor] at h
      rw [h.1, ih s2 u strides h.2, List.prod_cons, mul_comm]

theorem rowMajor_length : ∀ (sizes strides : List Int),
    RowMajor sizes strides → strides.length = sizes.length := by
  intro sizes
  induction sizes with
  | nil =>
    intro strides h
    cases strides with
    | nil => rfl
    | cons t strides => simp [RowMajor] at h
  | cons s sizes ih =>
    intro strides h
    cases strides with
    | nil => cases sizes <;> simp [RowMajor] at h
    | cons t strides =>
      cases sizes with
      | nil =>
        cases strides with
        | nil => rfl
        | cons u strides => simp [RowMajor] at h
      | cons s2 sizes =>
        cases strides with
        | nil => simp [RowMajor] at h
        | cons u strides =>
          simp only [RowMajor] at h
          have := ih (u :: strides) h.2
          simp only [List.length_cons] at this ⊢
          omega

theorem rowMajor_tail : ∀ (s s2 : Int) (sizes : List Int) (t : Int) (strides : List Int),
    RowMajor (s :: s2 :: sizes) (t :: strides) → RowMajor (s2 :: sizes) strides := by
  intro s s2 sizes t strides h
  cases strides with
  | nil => simp [RowMajor] at h
  | cons u strides => simp only [RowMajor] at h; exact h.2

theorem rowMajor_strides_nonneg : ∀ (sizes strides : List Int),
    RowMajor sizes strides → (∀ s ∈ sizes, 0 ≤ s) → ∀ t ∈ strides, 0 ≤ t := by
  intro sizes
  induction sizes with
  | nil =>
    intro strides h _
    cases strides with
    | nil => simp
    | cons t strides => simp [RowMajor] at h
  | cons s sizes ih =>
    intro strides h hs
    cases strides with
    | nil => simp
    | cons t strides =>
      have ht : t = sizes.prod := rowMajor_head_eq_prod sizes s t strides h
      have hprod : 0 ≤ sizes.prod :=
        List.prod_nonneg (fun u hu => hs u (by simp [hu]))
      cases sizes with
      | nil =>
        cases strides with
        | nil =>
          intro u hu
          simp only [List.mem_singleton] at hu
          omega
        | cons u strides => simp [RowMajor] at h
      | cons s2 sizes =>
        have h2 := ih strides (rowMajor_tail s s2 sizes t strides h)
          (fun u hu => hs u (by simp only [List.mem_cons] at hu ⊢; tauto))
        intro u hu
        simp only [List.mem_cons] at hu
        rcases hu with hu | hu
        · omega
        · exact h2 u hu

theorem rowMajor_terms_eq_prod : ∀ (sizes strides : List Int),
    sizes ≠ [] → RowMajor sizes strides → (∀ s ∈ sizes, 1 ≤ s) →
    1 + span_terms sizes strides = sizes.prod := by
  intro sizes
  induction sizes with
  | nil => intro strides h; exact absurd rfl h
  | cons s sizes ih =>
    intro strides _ h hs
    cases strides with
    | nil => cases sizes <;> simp [RowMajor] at h
    | cons t strides =>
      have ht : t = sizes.prod := rowMajor_head_eq_prod sizes s t strides h
      rw [span_terms, span_term_of_pos (hs s (by simp)), List.prod_cons]
      cases sizes with
      | nil =>
        simp only [List.prod_nil] at ht ⊢
        subst ht
        cases strides <;> simp [span_terms]
      | cons s2 sizes =>
        have h2 := ih strides (by simp) (rowMajor_tail s s2 sizes t strides h)
          (fun u hu => hs u (by simp only [List.mem_cons] at hu ⊢; tauto))
        rw [← ht]
        rw [← ht] at h2
        linear_combination h2

/-- C4 (amended): for a non-empty shape of non-negative sizes with row-major
contiguous strides, itemsize `w ≥ 0` and an exact span below `2 ^ 64` (no overflow),
`bytes_span` equals `product(sizes) * w` exactly when every size is at least 1 or
`w = 0`; in particular it does whenever every size is at least 1. -/
theorem bytes_span_contiguous_iff (sizes strides : List Int) (w : Int)
    (hne : sizes ≠ []) (hs : ∀ s ∈ sizes, 0 ≤ s) (hrm : RowMajor sizes strides)
    (hw : 0 ≤ w) (hno : bytes_span_spec sizes strides w < 2 ^ 64) :
    bytes_span sizes strides w = some (sizes.prod * w).toNat
      ↔ ((∀ s ∈ sizes, 1 ≤ s) ∨ w = 0) := by
  have hlen := rowMajor_length sizes strides hrm
  have hle : sizes.length ≤ strides.length := by omega
  have hspec := bytes_span_spec_eq_terms sizes strides w hle hne
  have hterms := span_terms_nonneg sizes strides
    (rowMajor_strides_nonneg sizes strides hrm hs)
  have h0 : 0 ≤ bytes_span_spec sizes strides w := by
    rw [hspec]; exact mul_nonneg (by omega) hw
  rw [bytes_span_exact sizes strides w hle h0 hno, hspec]
  constructor
  · intro h
    by_contra hcon
    rw [not_or] at hcon
    obtain ⟨hex, hw0⟩ := hcon
    rw [not_forall] at hex
    obtain ⟨s, hs2⟩ := hex
    rw [Classical.not_imp] at hs2
    have hs0 : s = 0 := by have := hs s hs2.1; omega
    have hprod : sizes.prod = 0 := List.prod_eq_zero (hs0 ▸ hs2.1)
    rw [hprod] at h
    simp only [zero_mul, Int.toNat_zero, Option.some.injEq] at h
    have hpos : 1 ≤ (1 + span_terms sizes strides) * w := by
      have hw1 : 1 ≤ w := by omega
      nlinarith
    omega
  · rintro (h | h)
    · rw [rowMajor_terms_eq_prod sizes strides hne hrm h]
    · subst h; simp

/-- Witness of C4 (amended) on sizes `(2,3,4)`, strides `(12,4,1)`, itemsize 4. -/
theorem bytes_span_contiguous_iff_witness :
    (([2, 3, 4] : List Int) ≠ [] ∧ (∀ s ∈ ([2, 3, 4] : List Int), 0 ≤ s) ∧
      RowMajor [2, 3, 4] [12, 4, 1] ∧ (0 : Int) ≤ 4 ∧
      bytes_span_spec [2, 3, 4] [12, 4, 1] 4 < 2 ^ 64) ∧
    (bytes_span [2, 3, 4] [12, 4, 1] 4 = some (([2, 3, 4] : List Int).prod * 4).toNat
      ↔ ((∀ s ∈ ([2, 3, 4] : List Int), 1 ≤ s) ∨ (4 : Int) = 0)) :=
  ⟨⟨by decide, by decide, by simp [RowMajor], by decide, by decide⟩,
    bytes_span_contiguous_iff [2, 3, 4] [12, 4, 1] 4 (by decide) (by decide)
      (by simp [RowMajor]) (by decide) (by decide)⟩

/-- C4 (counterexample): sizes `(0,3)` with row-major contiguous strides `(3,1)` and
itemsize 4 satisfy every hypothesis of the claim, `product(sizes) * 4 = 0`, yet
`bytes_span` returns 12. -/
theorem bytes_span_contiguous_zero_size :
    ([0, 3] : List Int) ≠ [] ∧ (∀ s ∈ ([0, 3] : List Int), 0 ≤ s) ∧
      RowMajor [0, 3] [3, 1] ∧ (0 : Int) ≤ 4 ∧ bytes_span_spec [0, 3] [3, 1] 4 < 2 ^ 64 ∧
      ([0, 3] : List Int).prod * 4 = 0 ∧
      bytes_span [0, 3] [3, 1] 4 = some 12 ∧
      bytes_span [0, 3] [3, 1] 4 ≠ some (([0, 3] : List Int).prod * 4).toNat :=
  ⟨by decide, by decide, by simp [RowMajor], by decide, by decide, by decide, by decide,
    by decide⟩

/-! ## Broadcast invariance -/

theorem bytes_span_loop_set (strides : List Int) (k : Nat) (x : Int) :
    ∀ (rest : List Int) (i output : Nat),
      (i ≤ k → ∀ s, rest[k - i]? = some s → s ≤ 1) →
      bytes_span_loop (strides.set k x) rest i output
        = bytes_span_loop strides rest i output := by
  intro rest
  induction rest with
  | nil => intro i output _; simp [bytes_span_loop]
  | cons size rest ih =>
    intro i output h
    have hrest : i + 1 ≤ k → ∀ s, rest[k - (i + 1)]? = some s → s ≤ 1 := by
      intro hik s hs
      apply h (by omega) s
      have : k - i = (k - (i + 1)) + 1 := by omega
      rw [this, List.getElem?_cons_succ]
      exact hs
    rw [bytes_span_loop, bytes_span_loop]
    by_cases hs : size > 1
    · have hne : k ≠ i := by
        intro hki
        subst hki
        have := h (le_refl _) size (by simp)
        omega
      simp only [hs, if_true, List.getElem?_set, if_neg hne]
      cases strides[i]? with
      | none => rfl
      | some stride => exact ih (i + 1) _ hrest
    · simp only [hs, if_false]
      exact ih (i + 1) output hrest

/-- C5: for every dimension `i` with `sizes[i] ≤ 1`, replacing `strides[i]` by any
integer `x` leaves `bytes_span` unchanged; in particular
`bytes_span((4,1,3), (3,999,1), 1) = 12`. -/
theorem bytes_span_broadcast_invariant (sizes strides : List Int) (itemsize : Int)
    (i : Nat) (x : Int) (hi : i < sizes.length) (hs : sizes[i] ≤ 1) :
    bytes_span sizes (strides.set i x) itemsize = bytes_span sizes strides itemsize ∧
      bytes_span [4, 1, 3] [3, 999, 1] 1 = some 12 := by
  refine ⟨?_, by decide⟩
  unfold bytes_span
  rw [bytes_span_loop_set strides i x sizes 0 1]
  intro _ s h
  rw [Nat.sub_zero, List.getElem?_eq_getElem hi] at h
  cases h
  exact hs

/-- Witness of C5: in sizes `(4,1,3)` the stride 999 of dimension 1 is replaced by 0. -/
theorem bytes_span_broadcast_invariant_witness :
    ((1 : Nat) < ([4, 1, 3] : List Int).length ∧ ([4, 1, 3] : List Int).getD 1 0 ≤ 1) ∧
    bytes_span [4, 1, 3] (([3, 999, 1] : List Int).set 1 0) 1
        = bytes_span [4, 1, 3] [3, 999, 1] 1 ∧
      bytes_span [4, 1, 3] [3, 999, 1] 1 = some 12 :=
  ⟨⟨by decide, by decide⟩,
    bytes_span_broadcast_invariant [4, 1, 3] [3, 999, 1] 1 1 0 (by decide) (by decide)⟩

/-! ## Exactness of the machine operations inside their ranges -/

theorem divS_of_nonneg {a b : Int} (ha : 0 ≤ a) (ha2 : a < 2 ^ 63) (hb : 1 ≤ b) :
    divS a b = some (a / b) := by
  unfold divS
  rw [if_neg (by omega), Int.tdiv_eq_ediv ha (by omega)]
  have h0 : 0 ≤ a / b := Int.ediv_nonneg ha (by omega)
  have h1 : a / b ≤ a := Int.ediv_le_self b ha
  rw [toS64_of_range (by omega) (by omega)]

theorem subS_addS_exact {x y v : Int} (hxy : x ≡ y [ZMOD 2 ^ 64])
    (h : InS64 (y + v - 1)) : subS (addS x v) 1 = y + v - 1 := by
  unfold subS addS
  have h1 : toS64 (x + v) - 1 ≡ y + v - 1 [ZMOD 2 ^ 64] :=
    (((toS64_modEq (x + v)).trans (hxy.add_right v))).sub_right 1
  rw [toS64_congr h1, toS64_of_range h.1 h.2]

theorem ceil_divS {x y v : Int} (hxy : x ≡ y [ZMOD 2 ^ 64]) (hy : 0 ≤ y) (hv : 1 ≤ v)
    (h : InS64 (y + v - 1)) :
    divS (subS (addS x v) 1) v = some ((y + v - 1) / v) := by
  rw [subS_addS_exact hxy h]
  exact divS_of_nonneg (by omega) h.2 hv

theorem ceil_div_eq (x v : Int) (hv : 1 ≤ v) :
    (x + v - 1) / v = ⌈(x : ℚ) / (v : ℚ)⌉ := by
  symm
  rw [Int.ceil_eq_iff]
  have hv0 : (0 : ℚ) < v := by exact_mod_cast hv
  have h1 := Int.emod_add_ediv (x + v - 1) v
  have h2 := Int.emod_nonneg (x + v - 1) (by omega : v ≠ 0)
  have h3 := Int.emod_lt_of_pos (x + v - 1) (by omega : 0 < v)
  constructor
  · rw [lt_div_iff₀ hv0]
    have : ((x + v - 1) / v - 1) * v < x := by nlinarith
    exact_mod_cast this
  · rw [div_le_iff₀ hv0]
    have : x ≤ (x + v - 1) / v * v := by nlinarith
    exact_mod_cast this

theorem ceil_div_le (x v : Int) (hx : 0 ≤ x) (hv : 1 ≤ v) : (x + v - 1) / v ≤ x := by
  have h0 : 0 ≤ (x + v - 1) / v := Int.ediv_nonneg (by omega) (by omega)
  have h1 := Int.emod_add_ediv (x + v - 1) v
  have h2 := Int.emod_nonneg (x + v - 1) (by omega : v ≠ 0)
  nlinarith

theorem ceil_div_nonneg (x v : Int) (hx : 0 ≤ x) (hv : 1 ≤ v) : 0 ≤ (x + v - 1) / v :=
  Int.ediv_nonneg (by omega) (by omega)

theorem mulS_modEq {a b c d : Int} (h1 : a ≡ c [ZMOD 2 ^ 64]) (h2 : b ≡ d [ZMOD 2 ^ 64]) :
    mulS a b ≡ c * d [ZMOD 2 ^ 64] :=
  (toS64_modEq (a * b)).trans (h1.mul h2)

theorem mulS_chain (n c o k h k2 h2 : Int)
    (hk : k ≡ k2 [ZMOD 2 ^ 64]) (hh : h ≡ h2 [ZMOD 2 ^ 64])
    (hr : InS64 (n * c * o * k2 * h2)) :
    mulS (mulS (mulS (mulS n c) o) k) h = n * c * o * k2 * h2 := by
  have h1 : mulS (mulS (mulS n c) o) k * h ≡ n * c * o * k2 * h2 [ZMOD 2 ^ 64] :=
    (mulS_modEq (mulS_modEq (mulS_modEq (Int.ModEq.refl n) (Int.ModEq.refl c))
      (Int.ModEq.refl o)) hk).mul hh
  have h3 : mulS (mulS (mulS (mulS n c) o) k) h
      = toS64 (mulS (mulS (mulS n c) o) k * h) := rfl
  rw [h3, toS64_congr h1, toS64_of_range hr.1 hr.2]

theorem toS64_inS64 (x : Int) : InS64 (toS64 x) := by
  unfold InS64 toS64; omega

theorem foldl_mulS_modEq : ∀ (l : List Int) (acc : Int),
    l.foldl (fun a i => mulS a i) acc ≡ acc * l.prod [ZMOD 2 ^ 64] := by
  intro l
  induction l with
  | nil => intro acc; simp
  | cons x l ih =>
    intro acc
    rw [List.foldl_cons, List.prod_cons, ← mul_assoc]
    exact (ih (mulS acc x)).trans ((toS64_modEq (acc * x)).mul_right _)

theorem foldl_mulS_inS64 : ∀ (l : List Int) (acc : Int), InS64 acc →
    InS64 (l.foldl (fun a i => mulS a i) acc) := by
  intro l
  induction l with
  | nil => intro acc h; exact h
  | cons x l ih =>
    intro acc _
    rw [List.foldl_cons]
    exact ih (mulS acc x) (toS64_inS64 _)

theorem foldl_mulS_exact (l : List Int) (h : InS64 l.prod) :
    l.foldl (fun a i => mulS a i) 1 = l.prod := by
  have h1 := foldl_mulS_inS64 l 1 (by unfold InS64; omega)
  have h2 := foldl_mulS_modEq l 1
  rw [one_mul] at h2
  rw [← toS64_of_range h1.1 h1.2, toS64_congr h2, toS64_of_range h.1 h.2]

theorem cache_lines_exact (a b : Nat) (e : Int) (he : 1 ≤ e) (he2 : e < 2 ^ 63)
    (h : (a : Int) + b + e - 1 < 2 ^ 64) :
    divU (subU (addU (addU a b) (toU64 e)) 1) (toU64 e)
      = some (((a : Int) + b + e - 1) / e).toNat ∧ addU a b = a + b := by
  have hab : addU a b = a + b := by unfold addU; omega
  have hte : toU64 e = e.toNat := toU64_of_range (by omega) (by omega)
  have h1 : ((addU (addU a b) (toU64 e) : Nat) : Int) - ((1 : Nat) : Int)
      ≡ (a : Int) + b + e - 1 [ZMOD 2 ^ 64] := by
    rw [addU_eq, addU_eq]
    exact ((toU64_modEq _).trans ((toU64_modEq _).add (toU64_modEq e))).sub_right 1
  have h2 : subU (addU (addU a b) (toU64 e)) 1 = ((a : Int) + b + e - 1).toNat := by
    unfold subU
    rw [toU64_congr h1, toU64_of_range (by omega) h]
  refine ⟨?_, hab⟩
  rw [h2, hte]
  unfold divU
  rw [if_neg (by omega)]
  congr 1
  have h3 : ((((a : Int) + b + e - 1).toNat : Nat) : Int) = (a : Int) + b + e - 1 := by omega
  have h4 : ((e.toNat : Nat) : Int) = e := by omega
  have h5 : (((((a : Int) + b + e - 1).toNat) / e.toNat : Nat) : Int)
      = ((a : Int) + b + e - 1) / e := by
    rw [Int.natCast_div, h3, h4]
  rw [← h5, Int.toNat_ofNat]

/-! ## Shape of the result of `compute_locals` -/

theorem compute_locals_intro (hw : HardwareProfile) (q : Roofline) {a b clf : Nat}
    {e N C_out C_in w2 w3 o2 o3 cv kv : Int}
    (h : LocalsPremises hw q a b clf e N C_out C_in w2 w3 o2 o3 cv kv) :
    q.compute_locals hw = some (mkLocals hw q a b clf e N C_out C_in w2 w3 o2 o3 cv kv) := by
  obtain ⟨ha, hb, he, hclf, hN, hCo, hCi, hw2, hw3, ho2, ho3, hcv, hkv⟩ := h
  simp only [Roofline.compute_locals, ha, hb, he, hclf, hN, hCo, hCi, hw2, hw3, ho2, ho3,
    hcv, hkv, mkLocals]

theorem compute_locals_elim (hw : HardwareProfile) (q : Roofline) {l : ComputeLocals}
    (h : q.compute_locals hw = some l) :
    ∃ (a b clf : Nat) (e N C_out C_in w2 w3 o2 o3 cv kv : Int),
      LocalsPremises hw q a b clf e N C_out C_in w2 w3 o2 o3 cv kv ∧
      l = mkLocals hw q a b clf e N C_out C_in w2 w3 o2 o3 cv kv := by
  unfold Roofline.compute_locals at h
  split at h
  · rename_i a b ha hb
    simp only at h
    split at h
    · cases h
    · rename_i e he
      split at h
      · cases h
      · rename_i clf hclf
        split at h
        · rename_i N C_out C_in w2 w3 o2 o3 hN hCo hCi hw2 hw3 ho2 ho3
          split at h
          · rename_i cv kv hcv hkv
            refine ⟨a, b, clf, e, N, C_out, C_in, w2, w3, o2, o3, cv, kv,
              ⟨ha, hb, he, hclf, hN, hCo, hCi, hw2, hw3, ho2, ho3, hcv, hkv⟩, ?_⟩
            simp only [Option.some.injEq] at h
            rw [← h]
            rfl
          · cases h
        · cases h
  · cases h

/-! ## The compute side in exact arithmetic -/

theorem getD_of_getElem? {l : List Int} {i : Nat} {x : Int} (h : l[i]? = some x) :
    l.getD i 0 = x := by
  simp [List.getD, h]

theorem mem_of_getElem?_some {l : List Int} {i : Nat} {x : Int} (h : l[i]? = some x) :
    x ∈ l := by
  obtain ⟨hi, hx⟩ := List.getElem?_eq_some_iff.mp h
  exact hx ▸ List.getElem_mem hi

/-- The values read by `compute` are the exact reference values, and are non-negative
for non-negative sizes. -/
theorem premises_values {hw : HardwareProfile} {q : Roofline} {a b clf : Nat}
    {e N C_out C_in w2 w3 o2 o3 cv kv : Int}
    (h : LocalsPremises hw q a b clf e N C_out C_in w2 w3 o2 o3 cv kv) :
    spec_N q = N ∧ spec_C_out q = C_out ∧ spec_C_in q = C_in ∧
      spec_kernel_hw q = w2 * w3 ∧ spec_output_hw q = o2 * o3 ∧
      (q.NonnegSizes → 0 ≤ N ∧ 0 ≤ C_out ∧ 0 ≤ C_in ∧ 0 ≤ w2 ∧ 0 ≤ w3 ∧ 0 ≤ o2 ∧ 0 ≤ o3) := by
  obtain ⟨_, _, _, _, hN, hCo, hCi, hw2, hw3, ho2, ho3, _, _⟩ := h
  refine ⟨getD_of_getElem? hN, getD_of_getElem? hCo, getD_of_getElem? hCi, ?_, ?_, ?_⟩
  · unfold spec_kernel_hw; rw [getD_of_getElem? hw2, getD_of_getElem? hw3]
  · unfold spec_output_hw; rw [getD_of_getElem? ho2, getD_of_getElem? ho3]
  · intro hnn
    exact ⟨hnn.1 _ (mem_of_getElem?_some hN), hnn.2.2 _ (mem_of_getElem?_some hCo),
      hnn.2.2 _ (mem_of_getElem?_some hCi), hnn.2.1 _ (mem_of_getElem?_some hw2),
      hnn.2.1 _ (mem_of_getElem?_some hw3), hnn.2.2 _ (mem_of_getElem?_some ho2),
      hnn.2.2 _ (mem_of_getElem?_some ho3)⟩

/-- Exact values of the two ceiling quotients and the three iteration counts. -/
theorem compute_side_exact {hw : HardwareProfile} {q : Roofline} {a b clf : Nat}
    {e N C_out C_in w2 w3 o2 o3 cv kv : Int}
    (h : LocalsPremises hw q a b clf e N C_out C_in w2 w3 o2 o3 cv kv)
    (hnn : q.NonnegSizes) (hv : 1 ≤ hw.cpu_vector_size) (hno : NoOverflowCompute hw q) :
    cv = (C_in + hw.cpu_vector_size - 1) / hw.cpu_vector_size ∧
    kv = (w2 * w3 + hw.cpu_vector_size - 1) / hw.cpu_vector_size ∧
    mulS (mulS (mulS (mulS N C_in) C_out) (mulS w2 w3)) (mulS o2 o3)
      = N * C_in * C_out * (w2 * w3) * (o2 * o3) ∧
    mulS (mulS (mulS (mulS N cv) C_out) (mulS w2 w3)) (mulS o2 o3)
      = N * cv * C_out * (w2 * w3) * (o2 * o3) ∧
    mulS (mulS (mulS (mulS N C_in) C_out) kv) (mulS o2 o3)
      = N * C_in * C_out * kv * (o2 * o3) := by
  obtain ⟨hN, hCo, hCi, hk, ho, hpos⟩ := premises_values h
  obtain ⟨hN0, hCo0, hCi0, hw20, hw30, ho20, ho30⟩ := hpos hnn
  obtain ⟨_, _, _, _, _, _, _, _, _, _, _, hcv, hkv⟩ := h
  obtain ⟨h1, h2, h3⟩ := hno
  unfold spec_iterations at h3
  rw [hCi] at h1
  rw [hk] at h2
  rw [hN, hCi, hCo, hk, ho] at h3
  have hk0 : 0 ≤ w2 * w3 := mul_nonneg hw20 hw30
  have ho0 : 0 ≤ o2 * o3 := mul_nonneg ho20 ho30
  rw [ceil_divS (Int.ModEq.refl C_in) hCi0 hv h1] at hcv
  have hkm : mulS w2 w3 ≡ w2 * w3 [ZMOD 2 ^ 64] := toS64_modEq (w2 * w3)
  rw [ceil_divS hkm hk0 hv h2] at hkv
  simp only [Option.some.injEq] at hcv hkv
  have hcv0 := ceil_div_nonneg C_in hw.cpu_vector_size hCi0 hv
  have hcv1 := ceil_div_le C_in hw.cpu_vector_size hCi0 hv
  have hkv0 := ceil_div_nonneg (w2 * w3) hw.cpu_vector_size hk0 hv
  have hkv1 := ceil_div_le (w2 * w3) hw.cpu_vector_size hk0 hv
  rw [hcv] at hcv0 hcv1
  rw [hkv] at hkv0 hkv1
  have hNCo : 0 ≤ N * C_out := mul_nonneg hN0 hCo0
  have hKO : 0 ≤ (w2 * w3) * (o2 * o3) := mul_nonneg hk0 ho0
  have e1 : N * cv * C_out * (w2 * w3) * (o2 * o3)
      = cv * ((N * C_out) * ((w2 * w3) * (o2 * o3))) := by ring
  have e2 : N * C_in * C_out * (w2 * w3) * (o2 * o3)
      = C_in * ((N * C_out) * ((w2 * w3) * (o2 * o3))) := by ring
  have e3 : N * C_in * C_out * kv * (o2 * o3)
      = kv * ((N * C_in * C_out) * (o2 * o3)) := by ring
  have e4 : N * C_in * C_out * (w2 * w3) * (o2 * o3)
      = (w2 * w3) * ((N * C_in * C_out) * (o2 * o3)) := by ring
  have hP : 0 ≤ (N * C_out) * ((w2 * w3) * (o2 * o3)) := mul_nonneg hNCo hKO
  have hQ : 0 ≤ (N * C_in * C_out) * (o2 * o3) :=
    mul_nonneg (mul_nonneg (mul_nonneg hN0 hCi0) hCo0) ho0
  have r1 : InS64 (N * cv * C_out * (w2 * w3) * (o2 * o3)) := by
    constructor
    · rw [e1]; have := mul_nonneg hcv0 hP; omega
    · rw [e1]; rw [e2] at h3
      have := mul_le_mul_of_nonneg_right hcv1 hP
      exact lt_of_le_of_lt this h3.2
  have r2 : InS64 (N * C_in * C_out * kv * (o2 * o3)) := by
    constructor
    · rw [e3]; have := mul_nonneg hkv0 hQ; omega
    · rw [e3]; rw [e4] at h3
      have := mul_le_mul_of_nonneg_right hkv1 hQ
      exact lt_of_le_of_lt this h3.2
  refine ⟨hcv.symm, hkv.symm, ?_, ?_, ?_⟩
  · exact mulS_chain N C_in C_out _ _ _ _ (toS64_modEq _) (toS64_modEq _) h3
  · exact mulS_chain N cv C_out _ _ _ _ (toS64_modEq _) (toS64_modEq _) r1
  · exact mulS_chain N C_in C_out kv _ kv _ (Int.ModEq.refl kv) (toS64_modEq _) r2

/-- Order of the three compute times and of the factors, on the record of locals. -/
theorem compute_side_order {hw : HardwareProfile} {q : Roofline} {a b clf : Nat}
    {e N C_out C_in w2 w3 o2 o3 cv kv : Int}
    (h : LocalsPremises hw q a b clf e N C_out C_in w2 w3 o2 o3 cv kv)
    (hnn : q.NonnegSizes) (hv : 1 ≤ hw.cpu_vector_size) (hhz : 0 < hw.cpu_hz)
    (hno : NoOverflowCompute hw q) :
    let l := mkLocals hw q a b clf e N C_out C_in w2 w3 o2 o3 cv kv
    l.compute_C_in_vectorized ≤ l.compute_naive ∧
    l.compute_kernel_hw_vectorized ≤ l.compute_naive ∧
    0 ≤ l.compute_C_in_vectorized ∧ 0 ≤ l.compute_kernel_hw_vectorized ∧
    l.C_in_vectorized ≤ l.C_in ∧ l.kernel_hw_vectorized ≤ l.kernel_hw := by
  obtain ⟨hcv, hkv, c1, c2, c3⟩ := compute_side_exact h hnn hv hno
  obtain ⟨_, _, _, hk, _, hpos⟩ := premises_values h
  obtain ⟨hN0, hCo0, hCi0, hw20, hw30, ho20, ho30⟩ := hpos hnn
  have hk0 : 0 ≤ w2 * w3 := mul_nonneg hw20 hw30
  have ho0 : 0 ≤ o2 * o3 := mul_nonneg ho20 ho30
  have hcv0 := ceil_div_nonneg C_in hw.cpu_vector_size hCi0 hv
  have hcv1 := ceil_div_le C_in hw.cpu_vector_size hCi0 hv
  have hkv0 := ceil_div_nonneg (w2 * w3) hw.cpu_vector_size hk0 hv
  have hkv1 := ceil_div_le (w2 * w3) hw.cpu_vector_size hk0 hv
  rw [← hcv] at hcv0 hcv1
  rw [← hkv] at hkv0 hkv1
  have hP : 0 ≤ (N * C_out) * ((w2 * w3) * (o2 * o3)) :=
    mul_nonneg (mul_nonneg hN0 hCo0) (mul_nonneg hk0 ho0)
  have hQ : 0 ≤ (N * C_in * C_out) * (o2 * o3) :=
    mul_nonneg (mul_nonneg (mul_nonneg hN0 hCi0) hCo0) ho0
  have i1 : N * cv * C_out * (w2 * w3) * (o2 * o3)
      ≤ N * C_in * C_out * (w2 * w3) * (o2 * o3) := by
    have := mul_le_mul_of_nonneg_right hcv1 hP
    linarith
  have i2 : N * C_in * C_out * kv * (o2 * o3)
      ≤ N * C_in * C_out * (w2 * w3) * (o2 * o3) := by
    have := mul_le_mul_of_nonneg_right hkv1 hQ
    linarith
  have i3 : 0 ≤ N * cv * C_out * (w2 * w3) * (o2 * o3) := by
    have := mul_nonneg hcv0 hP
    linarith
  have i4 : 0 ≤ N * C_in * C_out * kv * (o2 * o3) := by
    have := mul_nonneg hkv0 hQ
    linarith
  have hkm : mulS w2 w3 = w2 * w3 := by
    unfold mulS
    have := hno.2.1
    rw [hk] at this
    exact toS64_of_range (by omega) (by have := this.2; omega)
  simp only [mkLocals, c1, c2, c3]
  rw [hkm]
  refine ⟨?_, ?_, ?_, ?_, hcv1, hkv1⟩
  · exact div_le_div_of_nonneg_right (by exact_mod_cast i1) hhz.le
  · exact div_le_div_of_nonneg_right (by exact_mod_cast i2) hhz.le
  · exact div_nonneg (by exact_mod_cast i3) hhz.le
  · exact div_nonneg (by exact_mod_cast i4) hhz.le

/-- C6: for a rank-4 query with non-negative sizes, `cpu_vector_size ≥ 1`,
`cpu_hz > 0` and no overflow on the compute side, the locals of a run of `compute`
satisfy `min(compute_C_in_vectorized, compute_kernel_hw_vectorized) ≤ compute_naive`;
indeed each vectorized compute time is at most `compute_naive`, because each
ceiling quotient is at most the factor it replaces. -/
theorem vectorized_compute_le_naive (hw : HardwareProfile) (q : Roofline)
    (l : ComputeLocals) (hrun : q.compute_locals hw = some l)
    (hrank : q.Rank4) (hnn : q.NonnegSizes) (hv : 1 ≤ hw.cpu_vector_size)
    (hhz : 0 < hw.cpu_hz) (hno : NoOverflowCompute hw q) :
    min l.compute_C_in_vectorized l.compute_kernel_hw_vectorized ≤ l.compute_naive ∧
      l.compute_C_in_vectorized ≤ l.compute_naive ∧
      l.compute_kernel_hw_vectorized ≤ l.compute_naive ∧
      l.C_in_vectorized ≤ l.C_in ∧ l.kernel_hw_vectorized ≤ l.kernel_hw := by
  obtain ⟨a, b, clf, e, N, C_out, C_in, w2, w3, o2, o3, cv, kv, hp, hl⟩ :=
    compute_locals_elim hw q hrun
  obtain ⟨h1, h2, _, _, h5, h6⟩ := compute_side_order hp hnn hv hhz hno
  have _ := hrank
  subst hl
  exact ⟨le_trans (min_le_left _ _) h1, h1, h2, h5, h6⟩

/-! ## The memory side in exact arithmetic -/

/-- Under the no-overflow conditions the two spans, the elements per cache line and
the cache-line count are computed and are the exact reference values. -/
theorem memory_side_exact (hw : HardwareProfile) (q : Roofline)
    (hrank : q.Rank4) (hi1 : 1 ≤ q.itemsize_) (hi2 : q.itemsize_ ≤ hw.cache_line_size)
    (hno : NoOverflowMemory hw q) :
    ∃ (a b clf : Nat) (e : Int),
      bytes_span q.input_sizes_ q.input_strides_ q.itemsize_ = some a ∧
      bytes_span q.weight_sizes_ q.weight_strides_ q.itemsize_ = some b ∧
      divS hw.cache_line_size q.itemsize_ = some e ∧
      divU (subU (addU (addU a b) (toU64 e)) 1) (toU64 e) = some clf ∧
      ((addU a b : Nat) : Int) = spec_read_bytes q ∧
      e = spec_elements_per_cache_line hw q ∧ 1 ≤ e ∧
      (clf : Int) = (spec_read_bytes q + e - 1) / e ∧
      q.output_sizes_.foldl (fun acc i => mulS acc i) 1 = q.output_sizes_.prod := by
  obtain ⟨r1, r2, r3, r4, _⟩ := hrank
  obtain ⟨n1, n2, n3, n4, n5⟩ := hno
  have hle1 : q.input_sizes_.length ≤ q.input_strides_.length := by omega
  have hle2 : q.weight_sizes_.length ≤ q.weight_strides_.length := by omega
  unfold spec_read_bytes at n3
  have ha := bytes_span_exact _ _ q.itemsize_ hle1 n1 (by
    have : 0 ≤ spec_elements_per_cache_line hw q :=
      Int.ediv_nonneg (by omega) (by omega)
    have he1 : 1 ≤ spec_elements_per_cache_line hw q :=
      Int.le_ediv_of_mul_le (by omega) (by omega)
    omega)
  have he1 : 1 ≤ spec_elements_per_cache_line hw q :=
    Int.le_ediv_of_mul_le (by omega) (by omega)
  have hb := bytes_span_exact _ _ q.itemsize_ hle2 n2 (by omega)
  have he := divS_of_nonneg (by omega : 0 ≤ hw.cache_line_size) n4 hi1
  have he2 : hw.cache_line_size / q.itemsize_ < 2 ^ 63 :=
    lt_of_le_of_lt (Int.ediv_le_self _ (by omega)) n4
  have hsum : (((bytes_span_spec q.input_sizes_ q.input_strides_ q.itemsize_).toNat : Nat) : Int)
      + (((bytes_span_spec q.weight_sizes_ q.weight_strides_ q.itemsize_).toNat : Nat) : Int)
      + hw.cache_line_size / q.itemsize_ - 1 < 2 ^ 64 := by
    rw [Int.toNat_of_nonneg n1, Int.toNat_of_nonneg n2]
    exact n3
  obtain ⟨hclf, hab⟩ := cache_lines_exact _ _ (hw.cache_line_size / q.itemsize_) he1 he2 hsum
  refine ⟨_, _, _, _, ha, hb, he, hclf, ?_, rfl, he1, ?_, foldl_mulS_exact _ n5⟩
  · rw [hab]
    unfold spec_read_bytes
    push_cast
    rw [Int.toNat_of_nonneg n1, Int.toNat_of_nonneg n2]
  · rw [Int.toNat_of_nonneg n1, Int.toNat_of_nonneg n2]
    unfold spec_read_bytes
    have h0 : 0 ≤ (bytes_span_spec q.input_sizes_ q.input_strides_ q.itemsize_ +
        bytes_span_spec q.weight_sizes_ q.weight_strides_ q.itemsize_ +
        hw.cache_line_size / q.itemsize_ - 1) / (hw.cache_line_size / q.itemsize_) :=
      Int.ediv_nonneg (by unfold spec_elements_per_cache_line at he1; omega)
        (by unfold spec_elements_per_cache_line at he1; omega)
    exact Int.toNat_of_nonneg h0

theorem lookups_of_rank4 (q : Roofline) (hrank : q.Rank4) :
    ∃ N C_out C_in w2 w3 o2 o3 : Int,
      q.input_sizes_[0]? = some N ∧ q.output_sizes_[0]? = some C_out ∧
      q.output_sizes_[1]? = some C_in ∧
      q.weight_sizes_[2]? = some w2 ∧ q.weight_sizes_[3]? = some w3 ∧
      q.output_sizes_[2]? = some o2 ∧ q.output_sizes_[3]? = some o3 := by
  obtain ⟨r1, _, r3, _, r5⟩ := hrank
  exact ⟨_, _, _, _, _, _, _,
    List.getElem?_eq_getElem (by omega), List.getElem?_eq_getElem (by omega),
    List.getElem?_eq_getElem (by omega), List.getElem?_eq_getElem (by omega),
    List.getElem?_eq_getElem (by omega), List.getElem?_eq_getElem (by omega),
    List.getElem?_eq_getElem (by omega)⟩

/-- Under the hypotheses of the exact reading, `compute_locals` returns and every
local holds its exact reference value. -/
theorem compute_locals_exact (hw : HardwareProfile) (q : Roofline)
    (hrank : q.Rank4) (hnn : q.NonnegSizes)
    (hi1 : 1 ≤ q.itemsize_) (hi2 : q.itemsize_ ≤ hw.cache_line_size)
    (hv : 1 ≤ hw.cpu_vector_size) (hno : NoOverflow hw q) :
    ∃ l : ComputeLocals, q.compute_locals hw = some l ∧
      (l.read_bytes : Int) = spec_read_bytes q ∧
      (l.cache_lines_fetched : Int)
        = ⌈(spec_read_bytes q : ℚ) / (spec_elements_per_cache_line hw q : ℚ)⌉ ∧
      l.memory = spec_memory hw q ∧
      l.read_stall_time = spec_stall hw q ∧
      l.memory_with_stalls = spec_memory hw q + spec_stall hw q ∧
      l.compute_naive = spec_compute_naive hw q ∧
      l.compute_C_in_vectorized = spec_compute_C_in_vectorized hw q ∧
      l.compute_kernel_hw_vectorized = spec_compute_kernel_hw_vectorized hw q := by
  obtain ⟨a, b, clf, e, ha, hb, he, hclf, hrb, hee, he1, hclfv, hfold⟩ :=
    memory_side_exact hw q hrank hi1 hi2 hno.1
  obtain ⟨N, C_out, C_in, w2, w3, o2, o3, hN, hCo, hCi, hw2, hw3, ho2, ho3⟩ :=
    lookups_of_rank4 q hrank
  have hnnv := hnn
  obtain ⟨_, hnw, hno2⟩ := hnnv
  have hCi0 : 0 ≤ C_in := hno2 _ (mem_of_getElem?_some hCi)
  have hk0 : 0 ≤ w2 * w3 :=
    mul_nonneg (hnw _ (mem_of_getElem?_some hw2)) (hnw _ (mem_of_getElem?_some hw3))
  have hc1 := hno.2.1
  have hc2 := hno.2.2.1
  unfold spec_C_in at hc1
  unfold spec_kernel_hw at hc2
  rw [getD_of_getElem? hCi] at hc1
  rw [getD_of_getElem? hw2, getD_of_getElem? hw3] at hc2
  have hcv := ceil_divS (Int.ModEq.refl C_in) hCi0 hv hc1
  have hkm : mulS w2 w3 ≡ w2 * w3 [ZMOD 2 ^ 64] := toS64_modEq (w2 * w3)
  have hkv := ceil_divS hkm hk0 hv hc2
  have hp : LocalsPremises hw q a b clf e N C_out C_in w2 w3 o2 o3 _ _ :=
    ⟨ha, hb, he, hclf, hN, hCo, hCi, hw2, hw3, ho2, ho3, hcv, hkv⟩
  obtain ⟨_, _, c1, c2, c3⟩ := compute_side_exact hp hnn hv hno.2
  obtain ⟨vN, vCo, vCi, vk, vo, _⟩ := premises_values hp
  have hclf2 : (clf : Int)
      = ⌈(spec_read_bytes q : ℚ) / (spec_elements_per_cache_line hw q : ℚ)⌉ := by
    rw [hclfv, ceil_div_eq _ _ he1, hee]
  have hrbq : ((addU a b : Nat) : ℚ) = (spec_read_bytes q : ℚ) := by
    rw [← hrb]; push_cast; rfl
  have hclfq : (clf : ℚ)
      = ((⌈(spec_read_bytes q : ℚ) / (spec_elements_per_cache_line hw q : ℚ)⌉ : Int) : ℚ) := by
    rw [← hclf2]; push_cast; rfl
  refine ⟨_, compute_locals_intro hw q hp, hrb, hclf2, ?_, ?_, ?_, ?_, ?_, ?_⟩
  · simp only [mkLocals, spec_memory, hrbq, hfold]
  · simp only [mkLocals, spec_stall, hclfq]
  · simp only [mkLocals, spec_memory, spec_stall, hrbq, hfold, hclfq]
  · simp only [mkLocals, spec_compute_naive, spec_iterations, c1, vN, vCo, vCi, vk, vo]
  · simp only [mkLocals, spec_compute_C_in_vectorized, c2, vN, vCo, vCi, vk, vo,
      ← ceil_div_eq _ _ hv]
  · simp only [mkLocals, spec_compute_kernel_hw_vectorized, c3, vN, vCo, vCi, vk, vo,
      ← ceil_div_eq _ _ hv]

/-! ## The end-to-end example -/

theorem qEx_rank4 : qEx.Rank4 := by
  simp [Roofline.Rank4, qEx]

theorem qEx_nonnegSizes : qEx.NonnegSizes := by
  simp [Roofline.NonnegSizes, qEx]

theorem qEx_nonnegStrides : qEx.NonnegStrides := by
  simp [Roofline.NonnegStrides, qEx]

theorem qEx_noOverflowCompute : NoOverflowCompute hwEx qEx := by
  simp [NoOverflowCompute, InS64, spec_C_in, spec_kernel_hw, spec_iterations, spec_N,
    spec_C_out, spec_output_hw, qEx, hwEx]

theorem qEx_spans :
    bytes_span_spec qEx.input_sizes_ qEx.input_strides_ qEx.itemsize_ = 768 ∧
    bytes_span_spec qEx.weight_sizes_ qEx.weight_strides_ qEx.itemsize_ = 432 := by
  constructor <;> decide

theorem qEx_noOverflowMemory : NoOverflowMemory hwEx qEx := by
  unfold NoOverflowMemory spec_read_bytes
  rw [qEx_spans.1, qEx_spans.2]
  simp [InS64, spec_elements_per_cache_line, qEx, hwEx]

theorem qEx_noOverflow : NoOverflow hwEx qEx :=
  ⟨qEx_noOverflowMemory, qEx_noOverflowCompute⟩

theorem qEx_locals :
    qEx.compute_locals hwEx
      = some (mkLocals hwEx qEx 768 432 75 16 1 1 4 3 3 6 6 1 2) :=
  compute_locals_intro hwEx qEx
    ⟨by decide, by decide, by decide, by decide, by decide, by decide, by decide,
      by decide, by decide, by decide, by decide, by decide, by decide⟩


/-- Witness of C6 on the end-to-end example. -/
theorem vectorized_compute_le_naive_witness :
    (qEx.compute_locals hwEx = some (mkLocals hwEx qEx 768 432 75 16 1 1 4 3 3 6 6 1 2) ∧
      qEx.Rank4 ∧ qEx.NonnegSizes ∧ 1 ≤ hwEx.cpu_vector_size ∧ 0 < hwEx.cpu_hz ∧
      NoOverflowCompute hwEx qEx) ∧
    (min (mkLocals hwEx qEx 768 432 75 16 1 1 4 3 3 6 6 1 2).compute_C_in_vectorized
        (mkLocals hwEx qEx 768 432 75 16 1 1 4 3 3 6 6 1 2).compute_kernel_hw_vectorized
        ≤ (mkLocals hwEx qEx 768 432 75 16 1 1 4 3 3 6 6 1 2).compute_naive ∧
      (mkLocals hwEx qEx 768 432 75 16 1 1 4 3 3 6 6 1 2).compute_C_in_vectorized
        ≤ (mkLocals hwEx qEx 768 432 75 16 1 1 4 3 3 6 6 1 2).compute_naive ∧
      (mkLocals hwEx qEx 768 432 75 16 1 1 4 3 3 6 6 1 2).compute_kernel_hw_vectorized
        ≤ (mkLocals hwEx qEx 768 432 75 16 1 1 4 3 3 6 6 1 2).compute_naive ∧
      (mkLocals hwEx qEx 768 432 75 16 1 1 4 3 3 6 6 1 2).C_in_vectorized
        ≤ (mkLocals hwEx qEx 768 432 75 16 1 1 4 3 3 6 6 1 2).C_in ∧
      (mkLocals hwEx qEx 768 432 75 16 1 1 4 3 3 6 6 1 2).kernel_hw_vectorized
        ≤ (mkLocals hwEx qEx 768 432 75 16 1 1 4 3 3 6 6 1 2).kernel_hw) :=
  ⟨⟨qEx_locals, qEx_rank4, qEx_nonnegSizes, by decide, by norm_num [hwEx],
      qEx_noOverflowCompute⟩,
    vectorized_compute_le_naive hwEx qEx _ qEx_locals qEx_rank4 qEx_nonnegSizes
      (by decide) (by norm_num [hwEx]) qEx_noOverflowCompute⟩


/-! ## `compute` against its exact reading -/

theorem compute_of_locals {hw : HardwareProfile} {q : Roofline} {l : ComputeLocals}
    (h : q.compute_locals hw = some l) :
    q.compute hw = some [max l.memory_with_stalls l.compute_naive,
      max l.memory (min l.compute_C_in_vectorized l.compute_kernel_hw_vectorized)] := by
  simp only [Roofline.compute, h]

theorem locals_of_compute {hw : HardwareProfile} {q : Roofline} {r : List ℚ}
    (h : q.compute hw = some r) :
    ∃ l : ComputeLocals, q.compute_locals hw = some l ∧
      r = [max l.memory_with_stalls l.compute_naive,
        max l.memory (min l.compute_C_in_vectorized l.compute_kernel_hw_vectorized)] := by
  unfold Roofline.compute at h
  split at h
  · cases h
  · rename_i l hl
    simp only [Option.some.injEq] at h
    exact ⟨l, hl, h.symm⟩

/-- C1: in exact arithmetic (no overflow), for a rank-4 query of non-negative sizes
with `1 ≤ itemsize ≤ cache_line_size`, `cpu_vector_size ≥ 1` and positive `cpu_hz`
and bandwidths, `compute` returns exactly the two values
`naive = max(memory + stall, compute_naive)` and
`vectorized = max(memory, min(compute_C_in_vectorized, compute_kernel_hw_vectorized))`
built from the exact reference quantities `spec_memory`, `spec_stall`,
`spec_compute_naive`, `spec_compute_C_in_vectorized`,
`spec_compute_kernel_hw_vectorized`. -/
theorem compute_refines_spec (hw : HardwareProfile) (q : Roofline)
    (hrank : q.Rank4) (hnn : q.NonnegSizes)
    (hi1 : 1 ≤ q.itemsize_) (hi2 : q.itemsize_ ≤ hw.cache_line_size)
    (hv : 1 ≤ hw.cpu_vector_size) (hhz : 0 < hw.cpu_hz)
    (hsr : 0 < hw.sequential_read) (hsw : 0 < hw.sequential_write)
    (hno : NoOverflow hw q) :
    q.compute hw = some
      [max (spec_memory hw q + spec_stall hw q) (spec_compute_naive hw q),
       max (spec_memory hw q)
         (min (spec_compute_C_in_vectorized hw q) (spec_compute_kernel_hw_vectorized hw q))] := by
  obtain ⟨l, hl, _, _, hm, _, hms, hcn, hcc, hck⟩ :=
    compute_locals_exact hw q hrank hnn hi1 hi2 hv hno
  have _ := hhz
  have _ := hsr
  have _ := hsw
  rw [compute_of_locals hl, hm, hms, hcn, hcc, hck]

/-- Witness of C1 on the end-to-end example. -/
theorem compute_refines_spec_witness :
    (qEx.Rank4 ∧ qEx.NonnegSizes ∧ 1 ≤ qEx.itemsize_ ∧
      qEx.itemsize_ ≤ hwEx.cache_line_size ∧ 1 ≤ hwEx.cpu_vector_size ∧ 0 < hwEx.cpu_hz ∧
      0 < hwEx.sequential_read ∧ 0 < hwEx.sequential_write ∧ NoOverflow hwEx qEx) ∧
    qEx.compute hwEx = some
      [max (spec_memory hwEx qEx + spec_stall hwEx qEx) (spec_compute_naive hwEx qEx),
       max (spec_memory hwEx qEx)
         (min (spec_compute_C_in_vectorized hwEx qEx)
           (spec_compute_kernel_hw_vectorized hwEx qEx))] :=
  ⟨⟨qEx_rank4, qEx_nonnegSizes, by decide, by decide, by decide, by norm_num [hwEx],
      by norm_num [hwEx], by norm_num [hwEx], qEx_noOverflow⟩,
    compute_refines_spec hwEx qEx qEx_rank4 qEx_nonnegSizes (by decide) (by decide)
      (by decide) (by norm_num [hwEx]) (by norm_num [hwEx]) (by norm_num [hwEx])
      qEx_noOverflow⟩

/-- C9: on the end-to-end example `compute` returns
`(76776 / 10^10, 288 / 10^9)`, with `read_bytes = 1200` and 75 cache lines fetched;
both estimates are positive and the vectorized one is at most the naive one. -/
theorem compute_end_to_end_example :
    qEx.compute hwEx = some [76776 / 10 ^ 10, 288 / 10 ^ 9] ∧
      (qEx.compute_locals hwEx).map (fun l => l.read_bytes) = some 1200 ∧
      (qEx.compute_locals hwEx).map (fun l => l.cache_lines_fetched) = some 75 ∧
      (0 : ℚ) < 76776 / 10 ^ 10 ∧ (0 : ℚ) < 288 / 10 ^ 9 ∧
      (288 : ℚ) / 10 ^ 9 ≤ 76776 / 10 ^ 10 := by
  refine ⟨?_, ?_, ?_, by norm_num, by norm_num, by norm_num⟩
  · rw [compute_of_locals qEx_locals]
    norm_num [mkLocals, qEx, hwEx, addU, mulS, toS64, max_def, min_def]
  · rw [qEx_locals]; rfl
  · rw [qEx_locals]; rfl

/-! ## Monotonicity of the memory time in the spans -/

theorem qWrapSmall_locals :
    qWrapSmall.compute_locals hwEx
      = some (mkLocals hwEx qWrapSmall 2 (2 ^ 63) (2 ^ 57 + 1) 64 2 1 1 1 1 1 1 1 1) :=
  compute_locals_intro hwEx qWrapSmall
    ⟨by decide, by decide, by decide, by decide, by decide, by decide, by decide,
      by decide, by decide, by decide, by decide, by decide, by decide⟩

theorem qWrapLarge_locals :
    qWrapLarge.compute_locals hwEx
      = some (mkLocals hwEx qWrapLarge (2 ^ 63) (2 ^ 63) 0 64 2 1 1 1 1 1 1 1 1) :=
  compute_locals_intro hwEx qWrapLarge
    ⟨by decide, by decide, by decide, by decide, by decide, by decide, by decide,
      by decide, by decide, by decide, by decide, by decide, by decide⟩

/-- C7 (counterexample): `qWrapSmall` and `qWrapLarge` differ only in the input
strides, the hypotheses of the claim hold, and the input span grows from 2 to `2 ^ 63`
bytes; but `read_bytes` wraps around `2 ^ 64` to 0, so `memory` and
`memory_with_stalls` of the second query are smaller than those of the first. -/
theorem memory_not_monotone_on_wraparound :
    qWrapLarge = { qWrapSmall with input_strides_ := [2 ^ 63 - 1, 1, 1, 1] } ∧
      (0 < hwEx.sequential_read ∧ 0 < hwEx.sequential_write ∧ 0 ≤ hwEx.approx_latency ∧
        1 ≤ qWrapSmall.itemsize_ ∧ qWrapSmall.itemsize_ ≤ hwEx.cache_line_size) ∧
      bytes_span qWrapSmall.input_sizes_ qWrapSmall.input_strides_ qWrapSmall.itemsize_
        = some 2 ∧
      bytes_span qWrapLarge.input_sizes_ qWrapLarge.input_strides_ qWrapLarge.itemsize_
        = some (2 ^ 63) ∧
      (qWrapSmall.compute_locals hwEx).map (fun l => (l.memory, l.memory_with_stalls))
        = some ((2 ^ 63 + 3) / 10 ^ 10, (2 ^ 63 + 3) / 10 ^ 10 + (2 ^ 57 + 1) / 10 ^ 7) ∧
      (qWrapLarge.compute_locals hwEx).map (fun l => (l.memory, l.memory_with_stalls))
        = some (1 / 10 ^ 10, 1 / 10 ^ 10) ∧
      (1 : ℚ) / 10 ^ 10 < (2 ^ 63 + 3) / 10 ^ 10 ∧
      (1 : ℚ) / 10 ^ 10 < (2 ^ 63 + 3) / 10 ^ 10 + (2 ^ 57 + 1) / 10 ^ 7 := by
  refine ⟨rfl, ⟨by norm_num [hwEx], by norm_num [hwEx], by norm_num [hwEx], by decide,
    by decide⟩, by decide, by decide, ?_, ?_, by norm_num, by norm_num⟩
  · rw [qWrapSmall_locals]
    norm_num [mkLocals, qWrapSmall, hwEx, addU, mulS, toS64]
  · rw [qWrapLarge_locals]
    norm_num [mkLocals, qWrapLarge, qWrapSmall, hwEx, addU, mulS, toS64]

/-- C7 (amended): two queries with the same sizes, output sizes and itemsize (they
may differ in input and weight strides), each tensor span of the second at least that
of the first, positive bandwidths, `approx_latency ≥ 0`,
`1 ≤ itemsize ≤ cache_line_size`, and no overflow (`cache_line_size < 2 ^ 63` and
`read_bytes + elements_per_cache_line - 1 < 2 ^ 64` for the second query): then
`memory` and `memory_with_stalls` of the second run are at least those of the first. -/
theorem memory_monotone_in_span (hw : HardwareProfile) (q1 q2 : Roofline)
    (l1 l2 : ComputeLocals) (a1 b1 a2 b2 : Nat)
    (hsame : q2.input_sizes_ = q1.input_sizes_ ∧ q2.weight_sizes_ = q1.weight_sizes_ ∧
      q2.output_sizes_ = q1.output_sizes_ ∧ q2.itemsize_ = q1.itemsize_)
    (ha1 : bytes_span q1.input_sizes_ q1.input_strides_ q1.itemsize_ = some a1)
    (hb1 : bytes_span q1.weight_sizes_ q1.weight_strides_ q1.itemsize_ = some b1)
    (ha2 : bytes_span q2.input_sizes_ q2.input_strides_ q2.itemsize_ = some a2)
    (hb2 : bytes_span q2.weight_sizes_ q2.weight_strides_ q2.itemsize_ = some b2)
    (hle_a : a1 ≤ a2) (hle_b : b1 ≤ b2)
    (hrun1 : q1.compute_locals hw = some l1) (hrun2 : q2.compute_locals hw = some l2)
    (hsr : 0 < hw.sequential_read) (hsw : 0 < hw.sequential_write)
    (hlat : 0 ≤ hw.approx_latency)
    (hi1 : 1 ≤ q1.itemsize_) (hi2 : q1.itemsize_ ≤ hw.cache_line_size)
    (hcl : hw.cache_line_size < 2 ^ 63)
    (hno : (a2 : Int) + b2 + hw.cache_line_size / q1.itemsize_ - 1 < 2 ^ 64) :
    l1.memory ≤ l2.memory ∧ l1.memory_with_stalls ≤ l2.memory_with_stalls := by
  obtain ⟨_, _, hout, hitem⟩ := hsame
  obtain ⟨a1x, b1x, clf1, e1, N1, Co1, Ci1, w21, w31, o21, o31, cv1, kv1, hp1, hl1⟩ :=
    compute_locals_elim hw q1 hrun1
  obtain ⟨a2x, b2x, clf2, e2, N2, Co2, Ci2, w22, w32, o22, o32, cv2, kv2, hp2, hl2⟩ :=
    compute_locals_elim hw q2 hrun2
  obtain ⟨pa1, pb1, pe1, pc1, _⟩ := hp1
  obtain ⟨pa2, pb2, pe2, pc2, _⟩ := hp2
  rw [ha1] at pa1; rw [hb1] at pb1; rw [ha2] at pa2; rw [hb2] at pb2
  cases pa1; cases pb1; cases pa2; cases pb2
  have he := divS_of_nonneg (by omega : 0 ≤ hw.cache_line_size) hcl hi1
  rw [he] at pe1
  rw [hitem, he] at pe2
  cases pe1; cases pe2
  have he1 : 1 ≤ hw.cache_line_size / q1.itemsize_ :=
    Int.le_ediv_of_mul_le (by omega) (by omega)
  have he2 : hw.cache_line_size / q1.itemsize_ < 2 ^ 63 :=
    lt_of_le_of_lt (Int.ediv_le_self _ (by omega)) hcl
  have hno1 : (a1 : Int) + b1 + hw.cache_line_size / q1.itemsize_ - 1 < 2 ^ 64 := by omega
  obtain ⟨hc1, hs1⟩ := cache_lines_exact a1 b1 _ he1 he2 hno1
  obtain ⟨hc2, hs2⟩ := cache_lines_exact a2 b2 _ he1 he2 hno
  rw [hc1] at pc1
  rw [hc2] at pc2
  cases pc1; cases pc2
  have hclf : (((a1 : Int) + b1 + hw.cache_line_size / q1.itemsize_ - 1)
        / (hw.cache_line_size / q1.itemsize_)).toNat
      ≤ (((a2 : Int) + b2 + hw.cache_line_size / q1.itemsize_ - 1)
        / (hw.cache_line_size / q1.itemsize_)).toNat :=
    Int.toNat_le_toNat (Int.ediv_le_ediv (by omega) (by omega))
  have hrb : ((addU a1 b1 : Nat) : ℚ) ≤ ((addU a2 b2 : Nat) : ℚ) := by
    rw [hs1, hs2]
    exact_mod_cast (by omega : a1 + b1 ≤ a2 + b2)
  have hmem : ((addU a1 b1 : Nat) : ℚ) / hw.sequential_read
      ≤ ((addU a2 b2 : Nat) : ℚ) / hw.sequential_read :=
    div_le_div_of_nonneg_right hrb hsr.le
  have hst : ((((a1 : Int) + b1 + hw.cache_line_size / q1.itemsize_ - 1)
        / (hw.cache_line_size / q1.itemsize_)).toNat : ℚ) * hw.approx_latency
      ≤ ((((a2 : Int) + b2 + hw.cache_line_size / q1.itemsize_ - 1)
        / (hw.cache_line_size / q1.itemsize_)).toNat : ℚ) * hw.approx_latency :=
    mul_le_mul_of_nonneg_right (by exact_mod_cast hclf) hlat
  have _ := hsw
  subst hl1
  subst hl2
  simp only [mkLocals, hout, hitem]
  constructor
  · linarith
  · linarith

theorem qExWide_locals :
    qExWide.compute_locals hwEx
      = some (mkLocals hwEx qExWide 1532 432 123 16 1 1 4 3 3 6 6 1 2) :=
  compute_locals_intro hwEx qExWide
    ⟨by decide, by decide, by decide, by decide, by decide, by decide, by decide,
      by decide, by decide, by decide, by decide, by decide, by decide⟩

/-- Witness of C7 (amended): `qEx` and the same query with doubled input strides. -/
theorem memory_monotone_in_span_witness :
    ((qExWide.input_sizes_ = qEx.input_sizes_ ∧ qExWide.weight_sizes_ = qEx.weight_sizes_ ∧
        qExWide.output_sizes_ = qEx.output_sizes_ ∧ qExWide.itemsize_ = qEx.itemsize_) ∧
      bytes_span qEx.input_sizes_ qEx.input_strides_ qEx.itemsize_ = some 768 ∧
      bytes_span qEx.weight_sizes_ qEx.weight_strides_ qEx.itemsize_ = some 432 ∧
      bytes_span qExWide.input_sizes_ qExWide.input_strides_ qExWide.itemsize_ = some 1532 ∧
      bytes_span qExWide.weight_sizes_ qExWide.weight_strides_ qExWide.itemsize_ = some 432 ∧
      768 ≤ 1532 ∧ 432 ≤ 432 ∧
      0 < hwEx.sequential_read ∧ 0 < hwEx.sequential_write ∧ 0 ≤ hwEx.approx_latency ∧
      1 ≤ qEx.itemsize_ ∧ qEx.itemsize_ ≤ hwEx.cache_line_size ∧
      hwEx.cache_line_size < 2 ^ 63 ∧
      ((1532 : Nat) : Int) + (432 : Nat) + hwEx.cache_line_size / qEx.itemsize_ - 1 < 2 ^ 64) ∧
    (mkLocals hwEx qEx 768 432 75 16 1 1 4 3 3 6 6 1 2).memory
        ≤ (mkLocals hwEx qExWide 1532 432 123 16 1 1 4 3 3 6 6 1 2).memory ∧
      (mkLocals hwEx qEx 768 432 75 16 1 1 4 3 3 6 6 1 2).memory_with_stalls
        ≤ (mkLocals hwEx qExWide 1532 432 123 16 1 1 4 3 3 6 6 1 2).memory_with_stalls :=
  ⟨⟨⟨rfl, rfl, rfl, rfl⟩, by decide, by decide, by decide, by decide, by decide, by decide,
      by norm_num [hwEx], by norm_num [hwEx], by norm_num [hwEx], by decide, by decide,
      by decide, by decide⟩,
    memory_monotone_in_span hwEx qEx qExWide _ _ 768 432 1532 432 ⟨rfl, rfl, rfl, rfl⟩
      (by decide) (by decide) (by decide) (by decide) (by decide) (by decide)
      qEx_locals qExWide_locals (by norm_num [hwEx]) (by norm_num [hwEx])
      (by norm_num [hwEx]) (by decide) (by decide) (by decide) (by decide)⟩

/-! ## Naive and vectorized estimates -/

/-- On the locals of a run, with non-negative sizes, `cpu_vector_size ≥ 1`,
`cpu_hz > 0`, `approx_latency ≥ 0` and no overflow on the compute side, the vectorized
estimate is at most the naive estimate. -/
theorem vectorized_le_naive_of_run {hw : HardwareProfile} {q : Roofline}
    {l : ComputeLocals} (hrun : q.compute_locals hw = some l)
    (hnn : q.NonnegSizes) (hv : 1 ≤ hw.cpu_vector_size) (hhz : 0 < hw.cpu_hz)
    (hlat : 0 ≤ hw.approx_latency) (hno : NoOverflowCompute hw q) :
    max l.memory (min l.compute_C_in_vectorized l.compute_kernel_hw_vectorized)
      ≤ max l.memory_with_stalls l.compute_naive := by
  obtain ⟨a, b, clf, e, N, C_out, C_in, w2, w3, o2, o3, cv, kv, hp, hl⟩ :=
    compute_locals_elim hw q hrun
  obtain ⟨h1, _, _, _, _, _⟩ := compute_side_order hp hnn hv hhz hno
  subst hl
  have hst : (0 : ℚ) ≤ (clf : ℚ) * hw.approx_latency :=
    mul_nonneg (Nat.cast_nonneg clf) hlat
  have hmem : (mkLocals hw q a b clf e N C_out C_in w2 w3 o2 o3 cv kv).memory
      ≤ (mkLocals hw q a b clf e N C_out C_in w2 w3 o2 o3 cv kv).memory_with_stalls := by
    simp only [mkLocals]
    linarith
  exact max_le_max hmem (le_trans (min_le_left _ _) h1)

/-- C10 (counterexample, by negation): there is no rank-4 query with non-negative
sizes and strides and `itemsize ≥ 1`, and no hardware profile with `cpu_hz > 0`,
positive bandwidths, `approx_latency ≥ 0`, `cpu_vector_size ≥ 1` and
`cache_line_size ≥ itemsize`, for which `compute` (no overflow) returns a vectorized
estimate strictly greater than the naive estimate. -/
theorem no_vectorized_above_naive :
    ¬ ∃ (hw : HardwareProfile) (q : Roofline) (naive vectorized : ℚ),
      q.Rank4 ∧ q.NonnegSizes ∧ q.NonnegStrides ∧ 1 ≤ q.itemsize_ ∧
      0 < hw.cpu_hz ∧ 0 < hw.sequential_read ∧ 0 < hw.sequential_write ∧
      0 ≤ hw.approx_latency ∧ 1 ≤ hw.cpu_vector_size ∧
      q.itemsize_ ≤ hw.cache_line_size ∧ NoOverflow hw q ∧
      q.compute hw = some [naive, vectorized] ∧ naive < vectorized := by
  rintro ⟨hw, q, naive, vectorized, _, hnn, _, _, hhz, _, _, hlat, hv, _, hno, hrun, hlt⟩
  obtain ⟨l, hl, hr⟩ := locals_of_compute hrun
  have h := vectorized_le_naive_of_run hl hnn hv hhz hlat hno.2
  simp only [List.cons.injEq, and_true] at hr
  rw [← hr.1, ← hr.2] at h
  exact absurd hlt (not_lt.mpr h)

/-- C10 (amended): for every rank-4 query with non-negative sizes and strides and
`itemsize ≥ 1`, and every hardware profile with `cpu_hz > 0`, positive bandwidths,
`approx_latency ≥ 0`, `cpu_vector_size ≥ 1` and `cache_line_size ≥ itemsize` (no
overflow), `compute` returns two values and the vectorized estimate is at most the
naive estimate. -/
theorem vectorized_le_naive (hw : HardwareProfile) (q : Roofline)
    (hrank : q.Rank4) (hnn : q.NonnegSizes) (hns : q.NonnegStrides)
    (hi1 : 1 ≤ q.itemsize_) (hhz : 0 < hw.cpu_hz)
    (hsr : 0 < hw.sequential_read) (hsw : 0 < hw.sequential_write)
    (hlat : 0 ≤ hw.approx_latency) (hv : 1 ≤ hw.cpu_vector_size)
    (hi2 : q.itemsize_ ≤ hw.cache_line_size) (hno : NoOverflow hw q) :
    ∃ naive vectorized : ℚ,
      q.compute hw = some [naive, vectorized] ∧ vectorized ≤ naive := by
  obtain ⟨l, hl, _⟩ := compute_locals_exact hw q hrank hnn hi1 hi2 hv hno
  have _ := hns
  have _ := hsr
  have _ := hsw
  exact ⟨_, _, compute_of_locals hl, vectorized_le_naive_of_run hl hnn hv hhz hlat hno.2⟩

/-- Witness of C10 (amended) on the end-to-end example. -/
theorem vectorized_le_naive_witness :
    (qEx.Rank4 ∧ qEx.NonnegSizes ∧ qEx.NonnegStrides ∧ 1 ≤ qEx.itemsize_ ∧
      0 < hwEx.cpu_hz ∧ 0 < hwEx.sequential_read ∧ 0 < hwEx.sequential_write ∧
      0 ≤ hwEx.approx_latency ∧ 1 ≤ hwEx.cpu_vector_size ∧
      qEx.itemsize_ ≤ hwEx.cache_line_size ∧ NoOverflow hwEx qEx) ∧
    ∃ naive vectorized : ℚ,
      qEx.compute hwEx = some [naive, vectorized] ∧ vectorized ≤ naive :=
  ⟨⟨qEx_rank4, qEx_nonnegSizes, qEx_nonnegStrides, by decide, by norm_num [hwEx],
      by norm_num [hwEx], by norm_num [hwEx], by norm_num [hwEx], by decide, by decide,
      qEx_noOverflow⟩,
    vectorized_le_naive hwEx qEx qEx_rank4 qEx_nonnegSizes qEx_nonnegStrides (by decide)
      (by norm_num [hwEx]) (by norm_num [hwEx]) (by norm_num [hwEx]) (by norm_num [hwEx])
      (by decide) (by decide) qEx_noOverflow⟩

/-! ## The degenerate regime -/

theorem hash_round_eq (hash : Int → Nat) (seed : Nat) (vi : Int) :
    seed ^^^ addU (addU (addU (hash vi) 0x9e3779b9) (shlU seed 6)) (shrU seed 2)
      = key_step_spec hash seed vi := by
  unfold key_step_spec addU shlU shrU
  congr 1
  omega

theorem hash_combine_eq_foldl (hash : Int → Nat) :
    ∀ (v : List Int) (seed : Nat),
      hash_combine hash seed v = v.foldl (key_step_spec hash) seed := by
  intro v
  induction v with
  | nil => intro seed; rfl
  | cons vi v ih =>
    intro seed
    rw [hash_combine, List.foldl_cons, hash_round_eq, ih]

theorem hash_combine_append (hash : Int → Nat) (seed : Nat) (a b : List Int) :
    hash_combine hash (hash_combine hash seed a) b = hash_combine hash seed (a ++ b) := by
  rw [hash_combine_eq_foldl, hash_combine_eq_foldl, hash_combine_eq_foldl, List.foldl_append]

theorem key_eq_hash_combine (hash : Int → Nat) (q : Roofline) :
    q.key hash = hash_combine hash 0
      (q.input_sizes_ ++ q.input_strides_ ++ q.weight_sizes_ ++ q.weight_strides_
        ++ q.output_sizes_) := by
  unfold Roofline.key
  simp only [hash_combine_append]

/-- C12: whatever function object `hash` stands for `std::hash<int64_t>`,
`Roofline::key()` is the left fold, from seed 0, of
`step(seed, v) = seed XOR (hash(v) + 0x9e3779b9 + (seed << 6) + (seed >> 2))`
(modulo `2 ^ 64`) over
`input_sizes ++ input_strides ++ weight_sizes ++ weight_strides ++ output_sizes`; and
`hash_combine(hash_combine(s, a), b) = hash_combine(s, a ++ b)` for every seed and
vectors. -/
theorem key_is_left_fold (hash : Int → Nat) (q : Roofline) (s : Nat) (a b : List Int) :
    q.key hash
        = List.foldl
            (fun seed v =>
              seed ^^^ ((hash v + 0x9e3779b9 + (seed <<< 6) + (seed >>> 2)) % 2 ^ 64))
            0
            (q.input_sizes_ ++ q.input_strides_ ++ q.weight_sizes_ ++ q.weight_strides_
              ++ q.output_sizes_) ∧
      hash_combine hash (hash_combine hash s a) b = hash_combine hash s (a ++ b) := by
  refine ⟨?_, hash_combine_append hash s a b⟩
  rw [key_eq_hash_combine, hash_combine_eq_foldl]
  rfl

/-- C13: two queries with the same input sizes, input strides, weight sizes, weight
strides and output sizes have the same `Roofline::key()`, whatever their itemsize. -/
theorem key_deterministic (hash : Int → Nat) (q1 q2 : Roofline)
    (h1 : q1.input_sizes_ = q2.input_sizes_) (h2 : q1.input_strides_ = q2.input_strides_)
    (h3 : q1.weight_sizes_ = q2.weight_sizes_) (h4 : q1.weight_strides_ = q2.weight_strides_)
    (h5 : q1.output_sizes_ = q2.output_sizes_) :
    q1.key hash = q2.key hash := by
  rw [key_eq_hash_combine, key_eq_hash_combine, h1, h2, h3, h4, h5]

/-- Witness of C13: the end-to-end example with itemsize 4 and with itemsize 8. -/
theorem key_deterministic_witness :
    (qEx.input_sizes_ = qEx8.input_sizes_ ∧ qEx.input_strides_ = qEx8.input_strides_ ∧
      qEx.weight_sizes_ = qEx8.weight_sizes_ ∧ qEx.weight_strides_ = qEx8.weight_strides_ ∧
      qEx.output_sizes_ = qEx8.output_sizes_ ∧ qEx.itemsize_ ≠ qEx8.itemsize_) ∧
    qEx.key std_hash = qEx8.key std_hash :=
  ⟨⟨rfl, rfl, rfl, rfl, rfl, by decide⟩,
    key_deterministic std_hash qEx qEx8 rfl rfl rfl rfl rfl⟩

/-- C14 (counterexample): with the `std::hash` of libstdc++ and libc++, the query
`qPortrait` (input sizes `(1,1,285,747)`) and the query `qLandscape`, which replaces the
input sizes by the different permutation `(1,1,747,285)` and leaves the other vectors
unchanged, have the same `Roofline::key()`, 3674975279562911485. -/
theorem key_permutation_collision :
    qLandscape = { qPortrait with input_sizes_ := [1, 1, 747, 285] } ∧
      List.Perm qLandscape.input_sizes_ qPortrait.input_sizes_ ∧
      qLandscape.input_sizes_ ≠ qPortrait.input_sizes_ ∧
      qPortrait.key std_hash = 3674975279562911485 ∧
      qLandscape.key std_hash = 3674975279562911485 := by
  refine ⟨rfl, by decide, by decide, ?_, ?_⟩
  · set_option maxRecDepth 100000 in decide
  · set_option maxRecDepth 100000 in decide

/-- C14 (amended): the fingerprint depends on the order of the entries, without being
injective on permutations: with the `std::hash` of libstdc++ and libc++, exchanging
the first two input sizes of the end-to-end example (all other vectors unchanged)
yields a different `Roofline::key()`. -/
theorem key_order_dependent :
    qExSwapped = { qEx with input_sizes_ := [3, 1, 8, 8] } ∧
      List.Perm qExSwapped.input_sizes_ qEx.input_sizes_ ∧
      qExSwapped.input_sizes_ ≠ qEx.input_sizes_ ∧
      qExSwapped.key std_hash ≠ qEx.key std_hash := by
  refine ⟨rfl, by decide, by decide, ?_⟩
  set_option maxRecDepth 100000 in decide

/-! ## The indices read by `compute` -/

/-- C17 (evaluation of the code): on the end-to-end example, a standard convolution
with `N = 1`, `C_in = 3`, `C_out = 4`, the local `C_out` of `compute` is
`output_sizes[0] = 1`, not the output channel count `output_sizes[1] = weight_sizes[0] = 4`,
and the local `C_in` is `output_sizes[1] = 4`, not `input_sizes[1] = 3`; the local `N` is
`input_sizes[0] = 1 = output_sizes[0]`. -/
theorem compute_channel_indices_example :
    (qEx.compute_locals hwEx).map (fun l => l.C_out) = some 1 ∧
      qEx.output_sizes_[1]? = some 4 ∧ qEx.weight_sizes_[0]? = some 4 ∧
      (qEx.compute_locals hwEx).map (fun l => l.C_in) = some 4 ∧
      qEx.input_sizes_[1]? = some 3 ∧ qEx.weight_sizes_[1]? = some 3 ∧
      (qEx.compute_locals hwEx).map (fun l => l.N) = some 1 ∧
      qEx.output_sizes_[0]? = some 1 := by
  rw [qEx_locals]
  exact ⟨rfl, rfl, rfl, rfl, rfl, rfl, rfl, rfl⟩

/-! ## Contiguous shapes of positive sizes -/

/-- C18: for a non-empty shape whose sizes are all at least 1, with row-major
contiguous strides, itemsize `w ≥ 0` and `product(sizes) * w < 2 ^ 64` (no overflow),
`bytes_span` returns `product(sizes) * w`. -/
theorem bytes_span_contiguous (sizes strides : List Int) (w : Int)
    (hne : sizes ≠ []) (hs : ∀ s ∈ sizes, 1 ≤ s) (hrm : RowMajor sizes strides)
    (hw : 0 ≤ w) (hno : sizes.prod * w < 2 ^ 64) :
    bytes_span sizes strides w = some (sizes.prod * w).toNat := by
  have hlen := rowMajor_length sizes strides hrm
  have hle : sizes.length ≤ strides.length := by omega
  have hspec := bytes_span_spec_eq_terms sizes strides w hle hne
  rw [rowMajor_terms_eq_prod sizes strides hne hrm hs] at hspec
  have hprod : 0 ≤ sizes.prod := List.prod_nonneg (fun s h => by have := hs s h; omega)
  rw [← hspec]
  exact bytes_span_exact sizes strides w hle (by rw [hspec]; exact mul_nonneg hprod hw)
    (by rw [hspec]; exact hno)

/-- Witness of C18 on sizes `(1,3,8,8)`, strides `(192,64,8,1)`, itemsize 4. -/
theorem bytes_span_contiguous_witness :
    (([1, 3, 8, 8] : List Int) ≠ [] ∧ (∀ s ∈ ([1, 3, 8, 8] : List Int), 1 ≤ s) ∧
      RowMajor [1, 3, 8, 8] [192, 64, 8, 1] ∧ (0 : Int) ≤ 4 ∧
      ([1, 3, 8, 8] : List Int).prod * 4 < 2 ^ 64) ∧
    bytes_span [1, 3, 8, 8] [192, 64, 8, 1] 4
      = some (([1, 3, 8, 8] : List Int).prod * 4).toNat :=
  ⟨⟨by decide, by decide, by simp [RowMajor], by decide, by decide⟩,
    bytes_span_contiguous [1, 3, 8, 8] [192, 64, 8, 1] 4 (by decide) (by decide)
      (by simp [RowMajor]) (by decide) (by decide)⟩

/-! ## Non-negative estimates -/

/-- On the locals of a run, with non-negative sizes, `cpu_vector_size ≥ 1`,
`cpu_hz > 0` and no overflow on the compute side, both estimates are non-negative. -/
theorem estimates_nonneg_of_run {hw : HardwareProfile} {q : Roofline}
    {l : ComputeLocals} (hrun : q.compute_locals hw = some l)
    (hnn : q.NonnegSizes) (hv : 1 ≤ hw.cpu_vector_size) (hhz : 0 < hw.cpu_hz)
    (hno : NoOverflowCompute hw q) :
    0 ≤ max l.memory_with_stalls l.compute_naive ∧
      0 ≤ max l.memory (min l.compute_C_in_vectorized l.compute_kernel_hw_vectorized) := by
  obtain ⟨a, b, clf, e, N, C_out, C_in, w2, w3, o2, o3, cv, kv, hp, hl⟩ :=
    compute_locals_elim hw q hrun
  obtain ⟨h1, _, h3, h4, _, _⟩ := compute_side_order hp hnn hv hhz hno
  subst hl
  exact ⟨le_max_of_le_right (le_trans h3 h1), le_max_of_le_right (le_min h3 h4)⟩

/-- C11: for every rank-4 query with non-negative sizes and strides and
`itemsize ≥ 1`, and every hardware profile with `cpu_hz > 0`, positive bandwidths,
`approx_latency ≥ 0`, `cpu_vector_size ≥ 1` and `cache_line_size ≥ itemsize` (no
overflow), `compute` returns two values and both are non-negative. -/
theorem estimates_nonneg (hw : HardwareProfile) (q : Roofline)
    (hrank : q.Rank4) (hnn : q.NonnegSizes) (hns : q.NonnegStrides)
    (hi1 : 1 ≤ q.itemsize_) (hhz : 0 < hw.cpu_hz)
    (hsr : 0 < hw.sequential_read) (hsw : 0 < hw.sequential_write)
    (hlat : 0 ≤ hw.approx_latency) (hv : 1 ≤ hw.cpu_vector_size)
    (hi2 : q.itemsize_ ≤ hw.cache_line_size) (hno : NoOverflow hw q) :
    ∃ naive vectorized : ℚ,
      q.compute hw = some [naive, vectorized] ∧ 0 ≤ naive ∧ 0 ≤ vectorized := by
  obtain ⟨l, hl, _⟩ := compute_locals_exact hw q hrank hnn hi1 hi2 hv hno
  have _ := hns
  have _ := hsr
  have _ := hsw
  have _ := hlat
  obtain ⟨h1, h2⟩ := estimates_nonneg_of_run hl hnn hv hhz hno.2
  exact ⟨_, _, compute_of_locals hl, h1, h2⟩

/-- Witness of C11 on the end-to-end example. -/
theorem estimates_nonneg_witness :
    (qEx.Rank4 ∧ qEx.NonnegSizes ∧ qEx.NonnegStrides ∧ 1 ≤ qEx.itemsize_ ∧
      0 < hwEx.cpu_hz ∧ 0 < hwEx.sequential_read ∧ 0 < hwEx.sequential_write ∧
      0 ≤ hwEx.approx_latency ∧ 1 ≤ hwEx.cpu_vector_size ∧
      qEx.itemsize_ ≤ hwEx.cache_line_size ∧ NoOverflow hwEx qEx) ∧
    ∃ naive vectorized : ℚ,
      qEx.compute hwEx = some [naive, vectorized] ∧ 0 ≤ naive ∧ 0 ≤ vectorized :=
  ⟨⟨qEx_rank4, qEx_nonnegSizes, qEx_nonnegStrides, by decide, by norm_num [hwEx],
      by norm_num [hwEx], by norm_num [hwEx], by norm_num [hwEx], by decide, by decide,
      qEx_noOverflow⟩,
    estimates_nonneg hwEx qEx qEx_rank4 qEx_nonnegSizes qEx_nonnegStrides (by decide)
      (by norm_num [hwEx]) (by norm_num [hwEx]) (by norm_num [hwEx]) (by norm_num [hwEx])
      (by decide) (by decide) qEx_noOverflow⟩

/-! ## The fingerprint against the cost -/

theorem qEx8_locals :
    qEx8.compute_locals hwEx
      = some (mkLocals hwEx qEx8 1536 864 300 8 1 1 4 3 3 6 6 1 2) :=
  compute_locals_intro hwEx qEx8
    ⟨by decide, by decide, by decide, by decide, by decide, by decide, by decide,
      by decide, by decide, by decide, by decide, by decide, by decide⟩

/-- C20: the rank-4 queries `qEx` and `qEx8` differ only in itemsize (4 and 8); they
have the same `Roofline::key()` for every hash function, yet under the same profile
`compute` returns `(76776 / 10^10, 288 / 10^9)` for the first and
`(303552 / 10^10, 3552 / 10^10)` for the second. -/
theorem key_does_not_determine_cost :
    ∃ (q1 q2 : Roofline) (hw : HardwareProfile) (r1 r2 : List ℚ),
      q1.Rank4 ∧ q2.Rank4 ∧ (∀ hash : Int → Nat, q1.key hash = q2.key hash) ∧
      q1.compute hw = some r1 ∧ q2.compute hw = some r2 ∧ r1 ≠ r2 ∧
      r1 = [76776 / 10 ^ 10, 288 / 10 ^ 9] ∧ r2 = [303552 / 10 ^ 10, 3552 / 10 ^ 10] := by
  refine ⟨qEx, qEx8, hwEx, [76776 / 10 ^ 10, 288 / 10 ^ 9],
    [303552 / 10 ^ 10, 3552 / 10 ^ 10], qEx_rank4, ?_, ?_, ?_, ?_, ?_, rfl, rfl⟩
  · simp [Roofline.Rank4, qEx8, qEx]
  · intro hash
    rw [key_eq_hash_combine, key_eq_hash_combine]
    rfl
  · rw [compute_of_locals qEx_locals]
    norm_num [mkLocals, qEx, hwEx, addU, mulS, toS64, max_def, min_def]
  · rw [compute_of_locals qEx8_locals]
    norm_num [mkLocals, qEx8, qEx, hwEx, addU, mulS, toS64, max_def, min_def]
  · norm_num

/-! ## Completion of `compute` -/

theorem bytes_span_some (sizes strides : List Int) (itemsize : Int)
    (h : sizes.length ≤ strides.length) : ∃ a, bytes_span sizes strides itemsize = some a :=
  ⟨_, bytes_span_eq_spec sizes strides itemsize h⟩

theorem divS_some (a b : Int) (hb : b ≠ 0) : divS a b = some (toS64 (Int.tdiv a b)) := by
  unfold divS
  rw [if_neg hb]

theorem divU_some (a b : Nat) (hb : b ≠ 0) : divU a b = some (a / b) := by
  unfold divU
  rw [if_neg hb]

theorem divU_eq_some {a b c : Nat} (h : divU a b = some c) : b ≠ 0 := by
  unfold divU at h
  intro hb
  rw [if_pos hb] at h
  cases h

/-- For a positive `int64_t` dividend `c` and a non-zero divisor `i`, the quotient
`c / i` converted to `size_t` is zero exactly when `c < |i|`. -/
theorem toU64_quotient_eq_zero_iff (c i : Int) (hc0 : 0 < c) (hc : c < 2 ^ 63)
    (hi : i ≠ 0) : toU64 (toS64 (Int.tdiv c i)) = 0 ↔ c < |i| := by
  have hn := Int.natAbs_tdiv c i
  have hle : (Int.tdiv c i).natAbs ≤ c.natAbs := by
    rw [hn]; exact Nat.div_le_self _ _
  have hipos : 0 < i.natAbs := Int.natAbs_pos.mpr hi
  have habs : |i| = (i.natAbs : Int) := Int.abs_eq_natAbs i
  have hr : -2 ^ 63 < Int.tdiv c i ∧ Int.tdiv c i < 2 ^ 63 := by omega
  rw [toS64_of_range (by omega) hr.2]
  have h0 : toU64 (Int.tdiv c i) = 0 ↔ Int.tdiv c i = 0 := by
    unfold toU64; omega
  rw [h0, habs, ← Int.natAbs_eq_zero, hn]
  have hdiv : c.natAbs.div i.natAbs = c.natAbs / i.natAbs := rfl
  rw [hdiv, Nat.div_eq_zero_iff hipos]
  omega

/-- With all five vectors of length 4, a non-zero itemsize, a non-zero
`cpu_vector_size` and a positive `int64_t` cache line size, `compute_locals` returns
exactly when `|itemsize| ≤ cache_line_size`. -/
theorem compute_locals_some_iff (hw : HardwareProfile) (q : Roofline)
    (hrank : q.Rank4) (hitem : q.itemsize_ ≠ 0) (hv : hw.cpu_vector_size ≠ 0)
    (hc0 : 0 < hw.cache_line_size) (hc : hw.cache_line_size < 2 ^ 63) :
    (∃ l, q.compute_locals hw = some l) ↔ |q.itemsize_| ≤ hw.cache_line_size := by
  have hz := toU64_quotient_eq_zero_iff hw.cache_line_size q.itemsize_ hc0 hc hitem
  constructor
  · rintro ⟨l, hl⟩
    obtain ⟨a, b, clf, e, N, C_out, C_in, w2, w3, o2, o3, cv, kv, hp, _⟩ :=
      compute_locals_elim hw q hl
    obtain ⟨_, _, he, hclf, _⟩ := hp
    rw [divS_some _ _ hitem] at he
    cases he
    have hne := divU_eq_some hclf
    by_contra hcon
    exact hne (hz.mpr (by omega))
  · intro hle
    obtain ⟨N, C_out, C_in, w2, w3, o2, o3, hN, hCo, hCi, hw2, hw3, ho2, ho3⟩ :=
      lookups_of_rank4 q hrank
    obtain ⟨r1, r2, r3, r4, _⟩ := hrank
    obtain ⟨a, ha⟩ := bytes_span_some q.input_sizes_ q.input_strides_ q.itemsize_ (by omega)
    obtain ⟨b, hb⟩ := bytes_span_some q.weight_sizes_ q.weight_strides_ q.itemsize_ (by omega)
    have hne : toU64 (toS64 (Int.tdiv hw.cache_line_size q.itemsize_)) ≠ 0 := by
      intro h0
      have := hz.mp h0
      omega
    exact ⟨_, compute_locals_intro hw q
      ⟨ha, hb, divS_some _ _ hitem, divU_some _ _ hne, hN, hCo, hCi, hw2, hw3, ho2, ho3,
        divS_some _ _ hv, divS_some _ _ hv⟩⟩

theorem compute_isSome_iff_locals (hw : HardwareProfile) (q : Roofline) :
    (q.compute hw).isSome ↔ ∃ l, q.compute_locals hw = some l := by
  constructor
  · intro h
    obtain ⟨r, hr⟩ := Option.isSome_iff_exists.mp h
    obtain ⟨l, hl, _⟩ := locals_of_compute hr
    exact ⟨l, hl⟩
  · rintro ⟨l, hl⟩
    rw [compute_of_locals hl]
    rfl

/-- C15 (counterexample): the query `qEx8` (all vectors of length 4, itemsize 8) under
the all-positive profile `hwTiny` (cache line of 4 bytes): `elements_per_cache_line` is
`4 / 8 = 0`, the cache-line count divides by it, and `compute` has no result. -/
theorem compute_divides_by_zero_example :
    qEx8.Rank4 ∧ qEx8.itemsize_ ≠ 0 ∧
      (0 < hwTiny.cpu_hz ∧ 0 < hwTiny.cpu_vector_size ∧ 0 < hwTiny.cache_line_size ∧
        0 < hwTiny.approx_latency ∧ 0 < hwTiny.sequential_read ∧
        0 < hwTiny.sequential_write) ∧
      divS hwTiny.cache_line_size qEx8.itemsize_ = some 0 ∧
      divU (subU (addU (addU 1536 864) (toU64 0)) 1) (toU64 0) = none ∧
      qEx8.compute hwTiny = none := by
  have h1 : bytes_span qEx8.input_sizes_ qEx8.input_strides_ qEx8.itemsize_ = some 1536 := by
    decide
  have h2 : bytes_span qEx8.weight_sizes_ qEx8.weight_strides_ qEx8.itemsize_ = some 864 := by
    decide
  have h3 : divS hwTiny.cache_line_size qEx8.itemsize_ = some 0 := by decide
  have h4 : divU (subU (addU (addU 1536 864) (toU64 0)) 1) (toU64 0) = none := by decide
  refine ⟨by simp [Roofline.Rank4, qEx8, qEx], by decide,
    ⟨by norm_num [hwTiny, hwEx], by decide, by decide, by norm_num [hwTiny, hwEx],
      by norm_num [hwTiny, hwEx], by norm_num [hwTiny, hwEx]⟩, h3, h4, ?_⟩
  simp only [Roofline.compute, Roofline.compute_locals, h1, h2, h3, h4]

/-- C15 (amended): for every query whose size and stride vectors all have exactly 4
entries and whose itemsize is non-zero, and every hardware profile of positive
constants (the cache line size an `int64_t` value), `compute` runs to completion, with
every vector index in range and no integer division by zero, exactly when
`|itemsize| ≤ cache_line_size`; in particular it does whenever
`1 ≤ itemsize ≤ cache_line_size`. -/
theorem compute_completes_iff (hw : HardwareProfile) (q : Roofline)
    (hrank : q.Rank4) (hitem : q.itemsize_ ≠ 0)
    (hpos : 0 < hw.cpu_hz ∧ 0 < hw.cpu_vector_size ∧ 0 < hw.cache_line_size ∧
      0 < hw.approx_latency ∧ 0 < hw.sequential_read ∧ 0 < hw.sequential_write)
    (hc : hw.cache_line_size < 2 ^ 63) :
    (q.compute hw).isSome ↔ |q.itemsize_| ≤ hw.cache_line_size := by
  rw [compute_isSome_iff_locals]
  exact compute_locals_some_iff hw q hrank hitem (by omega) hpos.2.2.1 hc

/-- Witness of C15 (amended) on the end-to-end example, which runs to completion. -/
theorem compute_completes_iff_witness :
    (qEx.Rank4 ∧ qEx.itemsize_ ≠ 0 ∧
      (0 < hwEx.cpu_hz ∧ 0 < hwEx.cpu_vector_size ∧ 0 < hwEx.cache_line_size ∧
        0 < hwEx.approx_latency ∧ 0 < hwEx.sequential_read ∧ 0 < hwEx.sequential_write) ∧
      hwEx.cache_line_size < 2 ^ 63) ∧
    ((qEx.compute hwEx).isSome ↔ |qEx.itemsize_| ≤ hwEx.cache_line_size) :=
  ⟨⟨qEx_rank4, by decide, by norm_num [hwEx], by decide⟩,
    compute_completes_iff hwEx qEx qEx_rank4 (by decide) (by norm_num [hwEx]) (by decide)⟩

/-! ## The vectorized estimate and the read stalls -/

/-- A run under one profile transfers to any profile with the same `cpu_hz`,
`cpu_vector_size` and bandwidths whose cache line holds at least one element; the
memory time and the vectorized compute times are the same. -/
theorem locals_transfer {hw1 hw2 : HardwareProfile} {q : Roofline} {l1 : ComputeLocals}
    (hhz : hw2.cpu_hz = hw1.cpu_hz) (hvs : hw2.cpu_vector_size = hw1.cpu_vector_size)
    (hsr : hw2.sequential_read = hw1.sequential_read)
    (hsw : hw2.sequential_write = hw1.sequential_write)
    (hi : 1 ≤ q.itemsize_) (h2 : q.itemsize_ ≤ hw2.cache_line_size)
    (hr2 : hw2.cache_line_size < 2 ^ 63)
    (hrun : q.compute_locals hw1 = some l1) :
    ∃ l2, q.compute_locals hw2 = some l2 ∧ l2.memory = l1.memory ∧
      l2.compute_C_in_vectorized = l1.compute_C_in_vectorized ∧
      l2.compute_kernel_hw_vectorized = l1.compute_kernel_hw_vectorized := by
  obtain ⟨a, b, clf, e, N, C_out, C_in, w2, w3, o2, o3, cv, kv, hp, hl⟩ :=
    compute_locals_elim hw1 q hrun
  obtain ⟨ha, hb, _, _, hN, hCo, hCi, hw2x, hw3x, ho2, ho3, hcv, hkv⟩ := hp
  have he := divS_of_nonneg (by omega : 0 ≤ hw2.cache_line_size) hr2 hi
  have he1 : 1 ≤ hw2.cache_line_size / q.itemsize_ :=
    Int.le_ediv_of_mul_le (by omega) (by omega)
  have he2 : hw2.cache_line_size / q.itemsize_ < 2 ^ 63 :=
    lt_of_le_of_lt (Int.ediv_le_self _ (by omega)) hr2
  have hne : toU64 (hw2.cache_line_size / q.itemsize_) ≠ 0 := by
    unfold toU64; omega
  rw [← hvs] at hcv hkv
  refine ⟨_, compute_locals_intro hw2 q
    ⟨ha, hb, he, divU_some _ _ hne, hN, hCo, hCi, hw2x, hw3x, ho2, ho3, hcv, hkv⟩, ?_, ?_, ?_⟩
  · subst hl; simp only [mkLocals, hsr, hsw]
  · subst hl; simp only [mkLocals, hhz]
  · subst hl; simp only [mkLocals, hhz]

theorem vectorized_estimate_of_locals {hw : HardwareProfile} {q : Roofline}
    {l : ComputeLocals} (h : q.compute_locals hw = some l) :
    q.vectorized_estimate hw
      = some (max l.memory (min l.compute_C_in_vectorized l.compute_kernel_hw_vectorized)) := by
  unfold Roofline.vectorized_estimate
  rw [compute_of_locals h]
  rfl

theorem vectorized_estimate_of_none {hw : HardwareProfile} {q : Roofline}
    (h : q.compute_locals hw = none) : q.vectorized_estimate hw = none := by
  unfold Roofline.vectorized_estimate Roofline.compute
  rw [h]
  rfl

/-- C19: for every query with `itemsize ≥ 1` and any two hardware profiles that differ
only in `approx_latency` and `cache_line_size` (both cache line sizes `int64_t` values
at least `itemsize`), the vectorized estimate, the second value returned by `compute`,
is the same under both profiles. -/
theorem vectorized_hides_stall (hw1 hw2 : HardwareProfile) (q : Roofline)
    (hsame : hw2.cpu_hz = hw1.cpu_hz ∧ hw2.cpu_vector_size = hw1.cpu_vector_size ∧
      hw2.sequential_read = hw1.sequential_read ∧
      hw2.sequential_write = hw1.sequential_write)
    (hi : 1 ≤ q.itemsize_)
    (h1 : q.itemsize_ ≤ hw1.cache_line_size) (h2 : q.itemsize_ ≤ hw2.cache_line_size)
    (hr1 : hw1.cache_line_size < 2 ^ 63) (hr2 : hw2.cache_line_size < 2 ^ 63) :
    q.vectorized_estimate hw1 = q.vectorized_estimate hw2 := by
  obtain ⟨hhz, hvs, hsr, hsw⟩ := hsame
  cases hl1 : q.compute_locals hw1 with
  | some l1 =>
    obtain ⟨l2, hl2, hm, hc, hk⟩ := locals_transfer hhz hvs hsr hsw hi h2 hr2 hl1
    rw [vectorized_estimate_of_locals hl1, vectorized_estimate_of_locals hl2, hm, hc, hk]
  | none =>
    cases hl2 : q.compute_locals hw2 with
    | some l2 =>
      obtain ⟨l, hl, _⟩ :=
        locals_transfer hhz.symm hvs.symm hsr.symm hsw.symm hi h1 hr1 hl2
      rw [hl1] at hl
      cases hl
    | none =>
      rw [vectorized_estimate_of_none hl1, vectorized_estimate_of_none hl2]

/-- Witness of C19: the end-to-end example under `hwEx` (cache line 64, latency
`10^-7`) and under `hwLong` (cache line 128, latency `10^-6`). -/
theorem vectorized_hides_stall_witness :
    ((hwLong.cpu_hz = hwEx.cpu_hz ∧ hwLong.cpu_vector_size = hwEx.cpu_vector_size ∧
        hwLong.sequential_read = hwEx.sequential_read ∧
        hwLong.sequential_write = hwEx.sequential_write) ∧
      1 ≤ qEx.itemsize_ ∧ qEx.itemsize_ ≤ hwEx.cache_line_size ∧
      qEx.itemsize_ ≤ hwLong.cache_line_size ∧ hwEx.cache_line_size < 2 ^ 63 ∧
      hwLong.cache_line_size < 2 ^ 63 ∧
      hwLong.cache_line_size ≠ hwEx.cache_line_size ∧
      hwLong.approx_latency ≠ hwEx.approx_latency ∧
      qEx.vectorized_estimate hwEx = some (288 / 10 ^ 9)) ∧
    qEx.vectorized_estimate hwEx = qEx.vectorized_estimate hwLong :=
  ⟨⟨⟨rfl, rfl, rfl, rfl⟩, by decide, by decide, by decide, by decide, by decide, by decide,
      by norm_num [hwLong, hwEx],
      by rw [vectorized_estimate_of_locals qEx_locals]
         norm_num [mkLocals, qEx, hwEx, addU, mulS, toS64, max_def, min_def]⟩,
    vectorized_hides_stall hwEx hwLong qEx ⟨rfl, rfl, rfl, rfl⟩ (by decide) (by decide)
      (by decide) (by decide) (by decide)⟩


/-! ## `string_format` -/

/-- The local `size` for a result of the sizing call in the `int` range: `r + 1` for
`0 ≤ r < INT_MAX`, and at least `2 ^ 64 - 2 ^ 31` for `r = INT_MAX` and for `r ≤ -2`. -/
theorem string_format_size_cases (r : Int) (h0 : -2 ^ 31 ≤ r) (h1 : r < 2 ^ 31) :
    (0 ≤ r → r < 2 ^ 31 - 1 → (string_format_size r : Int) = r + 1) ∧
      (r = 2 ^ 31 - 1 ∨ r ≤ -2 → 2 ^ 64 - 2 ^ 31 ≤ string_format_size r) := by
  unfold string_format_size toU64 toS32
  constructor
  · intro _ _; omega
  · intro _; omega

theorem string_format_buf_of_lt (size : Nat) (text : List Char) (uninit : Nat → Char)
    (i : Nat) (h : i < text.length) (hs : text.length ≤ size - 1) :
    string_format_buf size text uninit i = text.getD i (Char.ofNat 0) := by
  unfold string_format_buf
  rw [List.take_of_length_le hs, if_pos h]

/-- When the sizing call reports the length of the rendering, `0 ≤ r < INT_MAX`, and
the allocation of `r + 1` bytes is granted, `string_format` returns the rendering. -/
theorem string_format_returns (r : Int) (available : Nat) (text : List Char)
    (uninit : Nat → Char) (h0 : 0 ≤ r) (h1 : r < 2 ^ 31 - 1)
    (hlen : (text.length : Int) = r) (hav : r + 1 ≤ available) :
    string_format r available text uninit = Except.ok text := by
  have hsz := (string_format_size_cases r (by omega) (by omega)).1 h0 h1
  have hsize : string_format_size r = text.length + 1 := by omega
  unfold string_format
  simp only [hsize]
  rw [if_neg (by omega), if_neg (by omega)]
  congr 1
  apply List.ext_getElem
  · simp
  · intro i hi1 hi2
    simp only [List.getElem_map, List.getElem_range]
    rw [string_format_buf_of_lt _ _ _ _ hi2 (by omega)]
    simp [List.getD, List.getElem?_eq_getElem hi2]

end cost
